import Mathlib

/-!
# Quadrant cropper (`backend_ML/utils/crop_script/crop_img.go`)

A shallow embedding of the crop geometry of `processImage` and of the file
naming of `saveCroppedImage`, followed by the properties of the two.

Conventions of the embedding.

* Go `int` values are `Int`.  Every integer the cropper computes lies between
  `0` and the image width or height (or between the corners of the image
  bounds), so no 64-bit operation wraps.
* The `float64` arithmetic of the crop size is reproduced on rationals:
  `float64 x` is the IEEE 754 binary64 value nearest to `x`, a tie going to the
  even significand.  It is applied to the conversion `float64(origWidth)`, to
  the constants, and to the result of every multiplication and addition, each
  rounded on its own (no fused multiply-add, as the compiler emits on amd64).
  The exponent is not bounded: the values computed here lie between
  `2 ^ (-66)` and `2 ^ 63`, far inside the normal range.  The conversion
  `int(x)` is truncation toward zero.
* The process-wide random source is made explicit: each crop receives the two
  values returned by `rand.Float64()` and, for each of its two `rand.Intn`
  calls, the answer of the generator as a function of the bound it is asked
  for.  `rand.Intn n` panics when `n ≤ 0`; a panic is the `none` of `Option`.
* Go strings are sequences of bytes; the functions used here only ever look
  for the ASCII bytes `/` and `.`, so a string is a `List Char`.
-/

namespace CropImg

/-! ## `image.Point` and `image.Rectangle` -/

/-- An `image.Point`. -/
structure Point where
  X : Int
  Y : Int
  deriving DecidableEq, Repr

/-- An `image.Rectangle`: the points with `Min.X ≤ x < Max.X`, `Min.Y ≤ y < Max.Y`. -/
structure Rectangle where
  Min : Point
  Max : Point
  deriving DecidableEq, Repr

/-- `Rectangle.Dx`: the width. -/
def Rectangle.Dx (r : Rectangle) : Int := r.Max.X - r.Min.X

/-- `Rectangle.Dy`: the height. -/
def Rectangle.Dy (r : Rectangle) : Int := r.Max.Y - r.Min.Y

/-- `image.Rect`: the rectangle with the given corners, the coordinates of an
axis swapped when they come in the wrong order. -/
def Rect (x0 y0 x1 y1 : Int) : Rectangle :=
  let (x0, x1) := if x0 > x1 then (x1, x0) else (x0, x1)
  let (y0, y1) := if y0 > y1 then (y1, y0) else (y0, y1)
  ⟨⟨x0, y0⟩, ⟨x1, y1⟩⟩

/-- `Rectangle.Add`: translation by a point. -/
def Rectangle.Add (r : Rectangle) (p : Point) : Rectangle :=
  ⟨⟨r.Min.X + p.X, r.Min.Y + p.Y⟩, ⟨r.Max.X + p.X, r.Max.Y + p.Y⟩⟩

/-- The rectangle `r` lies inside `b`: the four inequalities of containment. -/
def Rectangle.Within (r b : Rectangle) : Prop :=
  b.Min.X ≤ r.Min.X ∧ r.Max.X ≤ b.Max.X ∧ b.Min.Y ≤ r.Min.Y ∧ r.Max.Y ≤ b.Max.Y

instance (r b : Rectangle) : Decidable (r.Within b) := by
  unfold Rectangle.Within; infer_instance

/-! ## `float64` -/

/-- Rounding to the nearest integer, a tie going to the even neighbour. -/
def roundHalfEven (q : ℚ) : Int :=
  if q - ⌊q⌋ < 1 / 2 then ⌊q⌋
  else if 1 / 2 < q - ⌊q⌋ then ⌊q⌋ + 1
  else if ⌊q⌋ % 2 = 0 then ⌊q⌋ else ⌊q⌋ + 1

/-- The spacing of the `float64` values around `x ≠ 0`: `2 ^ (e - 52)` for
`2 ^ e ≤ |x| < 2 ^ (e + 1)`. -/
def ulp (x : ℚ) : ℚ := (2 : ℚ) ^ (Int.log 2 |x| - 52)

/-- The `float64` nearest to `x` (IEEE 754 binary64, round to nearest, ties to
even): the conversion `float64(x)` and the rounding of every arithmetic
operation. The exponent is not bounded. -/
def float64 (x : ℚ) : ℚ :=
  if x = 0 then 0 else (roundHalfEven (x / ulp x) : ℚ) * ulp x

/-! ## Crop size -/

/-- The constant `minCropPercent = 0.6`, an untyped constant of the source. -/
def minCropPercent : ℚ := 6 / 10

/-- The constant `maxCropPercent = 0.9`. -/
def maxCropPercent : ℚ := 9 / 10

/-- The conversion `int(x)` of a floating-point value: truncation toward zero. -/
def toInt (x : ℚ) : Int := if 0 ≤ x then ⌊x⌋ else ⌈x⌉

/-- The fraction `minCropPercent + rand.Float64()*(maxCropPercent-minCropPercent)`,
for the value `u` that `rand.Float64()` returned: the constant difference is
exact and converted to `float64`, the product and the sum are each rounded. -/
def cropFraction (u : ℚ) : ℚ :=
  float64 (float64 minCropPercent + float64 (u * float64 (maxCropPercent - minCropPercent)))

/-- The crop size along one axis,
`int(float64(orig) * (minCropPercent + rand.Float64()*(maxCropPercent-minCropPercent)))`. -/
def cropSize (orig : Int) (u : ℚ) : Int :=
  toInt (float64 (float64 (orig : ℚ) * cropFraction u))

/-- A fraction of `[0.6, 0.9)` as the code has it: at least the `float64` of
`minCropPercent` and below `maxCropPercent`. -/
def InRange (f : ℚ) : Prop := float64 minCropPercent ≤ f ∧ f < maxCropPercent

instance (f : ℚ) : Decidable (InRange f) := by
  unfold InRange; infer_instance

/-! ## The random source -/

/-- `rand.Intn n`: panics (`none`) when `n ≤ 0`, otherwise the generator's
answer for the bound `n`. -/
def Intn (draw : Int → Int) (n : Int) : Option Int :=
  if n ≤ 0 then none else some (draw n)

/-- The contract of `rand.Intn`: asked for a bound `n > 0`, the generator
answers with a value of `[0, n)`. -/
def Admissible (draw : Int → Int) : Prop := ∀ n : Int, 0 < n → 0 ≤ draw n ∧ draw n < n

/-- The four draws one crop consumes, in the order of the calls. -/
structure Draws where
  /-- the first `rand.Float64()`: the width fraction -/
  uW : ℚ
  /-- the second `rand.Float64()`: the height fraction -/
  uH : ℚ
  /-- the answer to the first `rand.Intn` -/
  iX : Int → Int
  /-- the answer to the second `rand.Intn` -/
  iY : Int → Int

/-- The draws of a crop are valid: both fractions lie in
`[minCropPercent, maxCropPercent)` and both integer draws obey `rand.Intn`. -/
def Draws.Valid (d : Draws) : Prop :=
  InRange (cropFraction d.uW) ∧ InRange (cropFraction d.uH) ∧
    Admissible d.iX ∧ Admissible d.iY

/-! ## The two crops of `processImage` -/

/-- Half of the free space along one axis, `(orig - crop) / 2` with Go's
truncating division, replaced by `1` when it is `≤ 0`
(`maxX`, `maxY` of crop 1 and `halfFreeX`, `halfFreeY` of crop 2). -/
def halfFree (orig crop : Int) : Int :=
  let h := Int.tdiv (orig - crop) 2
  if h ≤ 0 then 1 else h

/-- The start coordinate of crop 1 along one axis: `rand.Intn(maxX)`. -/
def start1 (orig crop : Int) (draw : Int → Int) : Option Int :=
  Intn draw (halfFree orig crop)

/-- The start coordinate of crop 2 along one axis:
`halfFreeX + rand.Intn(halfFreeX)`. -/
def start2 (orig crop : Int) (draw : Int → Int) : Option Int :=
  (Intn draw (halfFree orig crop)).map fun r => halfFree orig crop + r

/-- What one crop block of `processImage` does. -/
inductive Crop where
  /-- the size guard failed: the crop is reported as skipped -/
  | skipped
  /-- the rectangle handed to `SubImage`, whose result goes to `saveCroppedImage` -/
  | rect (r : Rectangle)
  deriving DecidableEq, Repr

/-- Crop 1 (top-left quadrant) of `processImage`, for an image with the given
bounds. `none` is a panic of `rand.Intn`. -/
def crop1 (bounds : Rectangle) (d : Draws) : Option Crop :=
  let origWidth := bounds.Dx
  let origHeight := bounds.Dy
  let cropWidth1 := cropSize origWidth d.uW
  let cropHeight1 := cropSize origHeight d.uH
  if origWidth > cropWidth1 ∧ origHeight > cropHeight1 then
    match start1 origWidth cropWidth1 d.iX with
    | none => none
    | some startX1 =>
      match start1 origHeight cropHeight1 d.iY with
      | none => none
      | some startY1 =>
        some (Crop.rect
          ((Rect startX1 startY1 (startX1 + cropWidth1) (startY1 + cropHeight1)).Add bounds.Min))
  else
    some Crop.skipped

/-- Crop 2 (bottom-right quadrant) of `processImage`. -/
def crop2 (bounds : Rectangle) (d : Draws) : Option Crop :=
  let origWidth := bounds.Dx
  let origHeight := bounds.Dy
  let cropWidth2 := cropSize origWidth d.uW
  let cropHeight2 := cropSize origHeight d.uH
  if origWidth > cropWidth2 ∧ origHeight > cropHeight2 then
    match start2 origWidth cropWidth2 d.iX with
    | none => none
    | some startX2 =>
      match start2 origHeight cropHeight2 d.iY with
      | none => none
      | some startY2 =>
        some (Crop.rect
          ((Rect startX2 startY2 (startX2 + cropWidth2) (startY2 + cropHeight2)).Add bounds.Min))
  else
    some Crop.skipped

/-- The calls of `saveCroppedImage` that a crop block makes: the rectangle of
the sub-image and the crop number. -/
def saveCalls (c : Crop) (cropNumber : Int) : List (Rectangle × Int) :=
  match c with
  | Crop.skipped => []
  | Crop.rect r => [(r, cropNumber)]

/-- The geometry of `processImage` after a successful decode: crop 1 with the
draws `d1`, then crop 2 with the draws `d2`; the result is the list of the
calls of `saveCroppedImage`, in order. -/
def processImage (bounds : Rectangle) (d1 d2 : Draws) : Option (List (Rectangle × Int)) :=
  match crop1 bounds d1 with
  | none => none
  | some c1 =>
    match crop2 bounds d2 with
    | none => none
    | some c2 => some (saveCalls c1 1 ++ saveCalls c2 2)

/-- The mean of `f r` when `r` is drawn uniformly from `[0, n)`. -/
def uniformMean (n : Int) (f : Int → ℚ) : ℚ :=
  (∑ r in Finset.range n.toNat, f (r : Int)) / (n : ℚ)

/-- The mean start coordinate of crop 1 along one axis under a uniform
`rand.Intn`. -/
def meanStart1 (orig crop : Int) : ℚ :=
  uniformMean (halfFree orig crop) fun r => ((start1 orig crop fun _ => r).getD 0 : Int)

/-- The mean start coordinate of crop 2 along one axis under a uniform
`rand.Intn`. -/
def meanStart2 (orig crop : Int) : ℚ :=
  uniformMean (halfFree orig crop) fun r => ((start2 orig crop fun _ => r).getD 0 : Int)

/-! ## File naming of `saveCroppedImage`

The functions of the Go standard library that `saveCroppedImage` calls, for a
system whose path separator is `/`. -/

/-- `os.IsPathSeparator`. -/
def IsPathSeparator (c : Char) : Bool := c == '/'

/-- `filepath.Base`: the last element of the path. Trailing separators are
removed first; the empty path gives `.` and a path of separators only gives `/`. -/
def Base (path : List Char) : List Char :=
  if path = [] then ['.']
  else
    let stripped := path.reverse.dropWhile IsPathSeparator
    let last := (stripped.takeWhile fun c => !IsPathSeparator c).reverse
    if last = [] then ['/'] else last

/-- The loop of `filepath.Ext`, from the last byte backwards: `rev` holds the
bytes still to visit, last one first, and `tail` the bytes already visited. -/
def extLoop : List Char → List Char → List Char
  | [], _ => []
  | c :: rev, tail =>
    if IsPathSeparator c then []
    else if c = '.' then c :: tail
    else extLoop rev (c :: tail)

/-- `filepath.Ext`: the suffix beginning at the final dot of the last element
of the path, empty when there is no dot. -/
def Ext (path : List Char) : List Char := extLoop path.reverse []

/-- `strings.HasSuffix`. -/
def HasSuffix (s suffix : List Char) : Bool :=
  decide (suffix.length ≤ s.length) && s.drop (s.length - suffix.length) == suffix

/-- `strings.TrimSuffix`. -/
def TrimSuffix (s suffix : List Char) : List Char :=
  if HasSuffix s suffix then s.take (s.length - suffix.length) else s

/-- The verb `%d` of `fmt.Sprintf`: the decimal digits, after a minus sign
for a negative number. -/
def formatInt (n : Int) : List Char :=
  if n < 0 then '-' :: Nat.toDigits 10 n.natAbs else Nat.toDigits 10 n.toNat

/-- The file name that `saveCroppedImage` builds:
`fmt.Sprintf("%s_crop_%d%s", nameOnly, cropNumber, ext)`. -/
def newFileName (sourcePath : List Char) (cropNumber : Int) : List Char :=
  let baseName := Base sourcePath
  let ext := Ext baseName
  let nameOnly := TrimSuffix baseName ext
  nameOnly ++ ['_', 'c', 'r', 'o', 'p', '_'] ++ formatInt cropNumber ++ ext

/-- The path that `saveCroppedImage` creates, `filepath.Join(destDir, newFileName)`;
`filepath.Join` is the parameter `Join`. -/
def destPath (Join : List Char → List Char → List Char)
    (sourcePath destDir : List Char) (cropNumber : Int) : List Char :=
  Join destDir (newFileName sourcePath cropNumber)

/-! ## Sample inputs -/

/-- A 100×100 image whose bounds start at `(3, 4)`. -/
def sampleBounds : Rectangle := ⟨⟨3, 4⟩, ⟨103, 104⟩⟩

/-- A one-pixel image, as the PNG decoder returns it. -/
def onePixel : Rectangle := ⟨⟨0, 0⟩, ⟨1, 1⟩⟩

/-- A 10×10 image, as the PNG decoder returns it. -/
def tenPixels : Rectangle := ⟨⟨0, 0⟩, ⟨10, 10⟩⟩

/-- The largest value of `rand.Float64`, `1 - 2 ^ (-53)`. -/
def lastDraw : ℚ := (2 ^ 53 - 1) / 2 ^ 53

/-- Draws: `rand.Float64` gives `0` then `1/2`, `rand.Intn` gives `0` then `n - 1`. -/
def sampleDraws1 : Draws := ⟨0, 1 / 2, fun _ => 0, fun n => n - 1⟩

/-- Draws: `rand.Float64` gives `3/4` then `0`, `rand.Intn` gives `n - 1` then `0`. -/
def sampleDraws2 : Draws := ⟨3 / 4, 0, fun n => n - 1, fun _ => 0⟩

/-- Draws: `rand.Float64` gives its largest value then `0`, `rand.Intn` gives `0` twice. -/
def sampleDraws3 : Draws := ⟨lastDraw, 0, fun _ => 0, fun _ => 0⟩

/-! ## Rounding to `float64` -/

theorem roundHalfEven_sub_le (q : ℚ) : |(roundHalfEven q : ℚ) - q| ≤ 1 / 2 := by
  have h1 := Int.floor_le q
  have h2 := Int.lt_floor_add_one q
  unfold roundHalfEven
  rw [abs_le]
  split
  · constructor <;> linarith
  · split
    · push_cast; constructor <;> linarith
    · split
      · constructor <;> linarith
      · push_cast; constructor <;> linarith

theorem roundHalfEven_eq_of_near {q : ℚ} {m : Int} (h : |q - m| < 1 / 2) :
    roundHalfEven q = m := by
  rw [abs_lt] at h
  obtain ⟨ha, hb⟩ := h
  by_cases hq : (m : ℚ) ≤ q
  · have hf : ⌊q⌋ = m := by
      rw [Int.floor_eq_iff]
      constructor <;> linarith
    unfold roundHalfEven
    rw [hf, if_pos (by linarith)]
  · have hf : ⌊q⌋ = m - 1 := by
      rw [Int.floor_eq_iff]
      push_cast
      constructor <;> linarith
    unfold roundHalfEven
    rw [hf]
    push_cast
    rw [if_neg (by linarith), if_pos (by linarith)]
    ring

theorem roundHalfEven_intCast (n : Int) : roundHalfEven (n : ℚ) = n :=
  roundHalfEven_eq_of_near (by simp)

theorem roundHalfEven_tie {q : ℚ} {m : Int} (h : q = m + 1 / 2) :
    roundHalfEven q = if m % 2 = 0 then m else m + 1 := by
  have hf : ⌊q⌋ = m := by
    rw [Int.floor_eq_iff]
    constructor <;> linarith
  unfold roundHalfEven
  rw [hf, if_neg (by linarith), if_neg (by linarith)]

theorem roundHalfEven_mono {q r : ℚ} (h : q ≤ r) : roundHalfEven q ≤ roundHalfEven r := by
  have hfl : ⌊q⌋ ≤ ⌊r⌋ := Int.floor_mono h
  have hq : ⌊q⌋ ≤ roundHalfEven q ∧ roundHalfEven q ≤ ⌊q⌋ + 1 := by
    unfold roundHalfEven
    split
    · omega
    · split
      · omega
      · split <;> omega
  have hr : ⌊r⌋ ≤ roundHalfEven r ∧ roundHalfEven r ≤ ⌊r⌋ + 1 := by
    unfold roundHalfEven
    split
    · omega
    · split
      · omega
      · split <;> omega
  by_cases hlt : ⌊q⌋ < ⌊r⌋
  · omega
  · have he : ⌊q⌋ = ⌊r⌋ := by omega
    have hsub : q - ⌊q⌋ ≤ r - ⌊r⌋ := by rw [he]; linarith
    unfold roundHalfEven
    rw [he] at hsub ⊢
    by_cases a1 : q - (⌊r⌋ : ℚ) < 1 / 2
    · rw [if_pos a1]
      split_ifs <;> omega
    · rw [if_neg a1, if_neg (by linarith : ¬ r - (⌊r⌋ : ℚ) < 1 / 2)]
      by_cases a2 : 1 / 2 < q - (⌊r⌋ : ℚ)
      · rw [if_pos a2, if_pos (by linarith)]
      · rw [if_neg a2]
        split_ifs <;> omega

theorem ulp_pos (x : ℚ) : 0 < ulp x := by
  unfold ulp
  positivity

/-- The exponent of a positive number, from its binade. -/
theorem log_eq_of_binade {x : ℚ} {e : Int} (hx : 0 < x) (h1 : (2 : ℚ) ^ e ≤ x)
    (h2 : x < (2 : ℚ) ^ (e + 1)) : Int.log 2 x = e := by
  have hb : 1 < (2 : ℕ) := by decide
  have a : e ≤ Int.log 2 x := by
    rw [← Int.zpow_le_iff_le_log hb hx]
    exact_mod_cast h1
  have b : Int.log 2 x < e + 1 := by
    rw [← Int.lt_zpow_iff_log_lt hb hx]
    exact_mod_cast h2
  omega

theorem ulp_eq_of_binade {x : ℚ} {e : Int} (hx : 0 < x) (h1 : (2 : ℚ) ^ e ≤ x)
    (h2 : x < (2 : ℚ) ^ (e + 1)) : ulp x = (2 : ℚ) ^ (e - 52) := by
  unfold ulp
  rw [abs_of_pos hx, log_eq_of_binade hx h1 h2]

/-- The significand `|x| / ulp x` lies in `[2 ^ 52, 2 ^ 53)`. -/
theorem ulp_spec {x : ℚ} (hx : x ≠ 0) :
    (2 : ℚ) ^ 52 * ulp x ≤ |x| ∧ |x| < (2 : ℚ) ^ 53 * ulp x := by
  have hb : 1 < (2 : ℕ) := by decide
  have hpos : 0 < |x| := abs_pos.mpr hx
  have a := Int.zpow_log_le_self hb hpos
  have b := Int.lt_zpow_succ_log_self hb |x|
  have e1 : (2 : ℚ) ^ 52 * ulp x = (2 : ℚ) ^ Int.log 2 |x| := by
    unfold ulp
    rw [← zpow_natCast, ← zpow_add₀ (by norm_num : (2 : ℚ) ≠ 0)]
    congr 1
    push_cast
    ring
  have e2 : (2 : ℚ) ^ 53 * ulp x = (2 : ℚ) ^ (Int.log 2 |x| + 1) := by
    unfold ulp
    rw [← zpow_natCast, ← zpow_add₀ (by norm_num : (2 : ℚ) ≠ 0)]
    congr 1
    push_cast
    ring
  rw [e1, e2]
  constructor
  · exact_mod_cast a
  · exact_mod_cast b

/-- The relative error of one rounding is at most `2 ^ (-53)`. -/
theorem float64_sub_le (x : ℚ) : |float64 x - x| ≤ |x| / 2 ^ 53 := by
  by_cases hx : x = 0
  · simp [float64, hx]
  · have hp := ulp_pos x
    have hs := (ulp_spec hx).1
    have hr := roundHalfEven_sub_le (x / ulp x)
    have e : float64 x - x = ((roundHalfEven (x / ulp x) : ℚ) - x / ulp x) * ulp x := by
      unfold float64
      rw [if_neg hx]
      field_simp
    rw [e, abs_mul, abs_of_pos hp]
    have h1 : |(roundHalfEven (x / ulp x) : ℚ) - x / ulp x| * ulp x ≤ 1 / 2 * ulp x :=
      mul_le_mul_of_nonneg_right hr hp.le
    have h2 : 1 / 2 * ulp x ≤ |x| / 2 ^ 53 := by
      rw [le_div_iff₀ (by positivity)]
      have : 1 / 2 * ulp x * 2 ^ 53 = 2 ^ 52 * ulp x := by ring
      rw [this]
      exact hs
    exact le_trans h1 h2

theorem float64_zero : float64 0 = 0 := by
  simp [float64]

theorem float64_bounds {x : ℚ} (hx : 0 ≤ x) :
    x * (1 - 1 / 2 ^ 53) ≤ float64 x ∧ float64 x ≤ x * (1 + 1 / 2 ^ 53) := by
  have h := float64_sub_le x
  rw [abs_of_nonneg hx, abs_le] at h
  constructor <;> linarith [h.1, h.2]

theorem float64_bounds_neg {x : ℚ} (hx : x ≤ 0) :
    x * (1 + 1 / 2 ^ 53) ≤ float64 x ∧ float64 x ≤ x * (1 - 1 / 2 ^ 53) := by
  have h := float64_sub_le x
  rw [abs_of_nonpos hx, abs_le] at h
  constructor <;> linarith [h.1, h.2]

theorem float64_nonneg {x : ℚ} (hx : 0 ≤ x) : 0 ≤ float64 x := by
  have h := (float64_bounds hx).1
  have : 0 ≤ x * (1 - 1 / 2 ^ 53) := mul_nonneg hx (by norm_num)
  linarith

/-- Evaluation of a rounding that is not a tie. -/
theorem float64_eq_of_near {x : ℚ} {e m : Int} (hx : 0 < x) (h1 : (2 : ℚ) ^ e ≤ x)
    (h2 : x < (2 : ℚ) ^ (e + 1)) (h3 : |x / (2 : ℚ) ^ (e - 52) - m| < 1 / 2) :
    float64 x = (m : ℚ) * (2 : ℚ) ^ (e - 52) := by
  unfold float64
  rw [if_neg hx.ne', ulp_eq_of_binade hx h1 h2, roundHalfEven_eq_of_near h3]

/-- Evaluation of a rounding that is a tie. -/
theorem float64_eq_of_tie {x : ℚ} {e m : Int} (hx : 0 < x) (h1 : (2 : ℚ) ^ e ≤ x)
    (h2 : x < (2 : ℚ) ^ (e + 1)) (h3 : x / (2 : ℚ) ^ (e - 52) = m + 1 / 2) :
    float64 x = ((if m % 2 = 0 then m else m + 1 : Int) : ℚ) * (2 : ℚ) ^ (e - 52) := by
  unfold float64
  rw [if_neg hx.ne', ulp_eq_of_binade hx h1 h2, roundHalfEven_tie h3]

theorem two_zpow_sub (e : Int) : (2 : ℚ) ^ 52 * (2 : ℚ) ^ (e - 52) = (2 : ℚ) ^ e := by
  rw [← zpow_natCast, ← zpow_add₀ (by norm_num : (2 : ℚ) ≠ 0)]
  congr 1
  push_cast
  ring

theorem two_zpow_sub_succ (e : Int) : (2 : ℚ) ^ 53 * (2 : ℚ) ^ (e - 52) = (2 : ℚ) ^ (e + 1) := by
  rw [← zpow_natCast, ← zpow_add₀ (by norm_num : (2 : ℚ) ≠ 0)]
  congr 1
  push_cast
  ring

/-- A rounded positive number stays in the closure of its binade. -/
theorem float64_binade {x : ℚ} (hx : 0 < x) :
    (2 : ℚ) ^ 52 * ulp x ≤ float64 x ∧ float64 x ≤ (2 : ℚ) ^ 53 * ulp x := by
  have hp := ulp_pos x
  obtain ⟨a, b⟩ := ulp_spec hx.ne'
  rw [abs_of_pos hx] at a b
  have a' : (((2 : Int) ^ 52 : Int) : ℚ) ≤ x / ulp x := by
    rw [le_div_iff₀ hp]
    push_cast
    exact a
  have b' : x / ulp x ≤ (((2 : Int) ^ 53 : Int) : ℚ) := by
    rw [div_le_iff₀ hp]
    push_cast
    exact b.le
  have ma := roundHalfEven_mono a'
  have mb := roundHalfEven_mono b'
  rw [roundHalfEven_intCast] at ma mb
  have ma' : ((2 : ℚ) ^ 52) ≤ (roundHalfEven (x / ulp x) : ℚ) := by exact_mod_cast ma
  have mb' : (roundHalfEven (x / ulp x) : ℚ) ≤ ((2 : ℚ) ^ 53) := by exact_mod_cast mb
  unfold float64
  rw [if_neg hx.ne']
  exact ⟨mul_le_mul_of_nonneg_right ma' hp.le, mul_le_mul_of_nonneg_right mb' hp.le⟩

/-- Rounding is monotone on the non-negative numbers. -/
theorem float64_mono {x y : ℚ} (hx : 0 ≤ x) (hxy : x ≤ y) : float64 x ≤ float64 y := by
  rcases hx.eq_or_lt with h0 | hpos
  · rw [← h0, float64_zero]
    exact float64_nonneg (le_trans hx hxy)
  · have hy : 0 < y := lt_of_lt_of_le hpos hxy
    have hl : Int.log 2 x ≤ Int.log 2 y := Int.log_mono_right hpos hxy
    rcases hl.eq_or_lt with he | hlt
    · have hu : ulp x = ulp y := by
        unfold ulp
        rw [abs_of_pos hpos, abs_of_pos hy, he]
      have hp := ulp_pos y
      have hm : roundHalfEven (x / ulp y) ≤ roundHalfEven (y / ulp y) :=
        roundHalfEven_mono (div_le_div_of_nonneg_right hxy hp.le)
      unfold float64
      rw [if_neg hpos.ne', if_neg hy.ne', hu]
      exact mul_le_mul_of_nonneg_right (by exact_mod_cast hm) hp.le
    · have a := (float64_binade hpos).2
      have b := (float64_binade hy).1
      have e1 : (2 : ℚ) ^ 53 * ulp x = (2 : ℚ) ^ (Int.log 2 x + 1) := by
        unfold ulp
        rw [abs_of_pos hpos, two_zpow_sub_succ]
      have e2 : (2 : ℚ) ^ 52 * ulp y = (2 : ℚ) ^ (Int.log 2 y) := by
        unfold ulp
        rw [abs_of_pos hy, two_zpow_sub]
      rw [e1] at a
      rw [e2] at b
      have c : (2 : ℚ) ^ (Int.log 2 x + 1) ≤ (2 : ℚ) ^ (Int.log 2 y) :=
        zpow_le_zpow_right₀ (by norm_num) (by omega)
      linarith

/-- An integer below `2 ^ 53` in absolute value is a `float64`. -/
theorem float64_intCast (n : Int) (h : |n| < 2 ^ 53) : float64 (n : ℚ) = n := by
  by_cases hn : n = 0
  · rw [hn]
    simp [float64]
  · have hq : (n : ℚ) ≠ 0 := by exact_mod_cast hn
    have hs := (ulp_spec hq).1
    have hlt : |(n : ℚ)| < (2 : ℚ) ^ (53 : Int) := by
      have h53 : |(n : ℚ)| < (2 : ℚ) ^ (53 : ℕ) := by exact_mod_cast h
      have e53 : (2 : ℚ) ^ (53 : ℕ) = (2 : ℚ) ^ (53 : Int) := by norm_num
      rw [← e53]
      exact h53
    have he : Int.log 2 |(n : ℚ)| < 53 := by
      have h1 : (2 : ℚ) ^ Int.log 2 |(n : ℚ)| ≤ |(n : ℚ)| := by
        have := Int.zpow_log_le_self (by decide : 1 < (2 : ℕ)) (abs_pos.mpr hq)
        exact_mod_cast this
      have h2 := lt_of_le_of_lt h1 hlt
      exact (zpow_lt_zpow_iff_right₀ (by norm_num : (1 : ℚ) < 2)).mp h2
    obtain ⟨k, hk⟩ : ∃ k : ℕ, (52 : Int) - Int.log 2 |(n : ℚ)| = k :=
      Int.eq_ofNat_of_zero_le (by omega)
    have hu : ulp (n : ℚ) = ((2 : ℚ) ^ k)⁻¹ := by
      unfold ulp
      have : Int.log 2 |(n : ℚ)| - 52 = -(k : Int) := by omega
      rw [this, zpow_neg, zpow_natCast]
    have hpk : (0 : ℚ) < (2 : ℚ) ^ k := by positivity
    have hd : (n : ℚ) / ulp (n : ℚ) = ((n * 2 ^ k : Int) : ℚ) := by
      rw [hu]
      push_cast
      field_simp
    unfold float64
    rw [if_neg hq, hd, roundHalfEven_intCast, hu]
    push_cast
    field_simp

/-! ## The constants and the fraction in `float64` -/

/-- The `float64` of `0.6`. -/
theorem float64_min : float64 minCropPercent = 5404319552844595 / 2 ^ 53 := by
  have h := @float64_eq_of_near (6 / 10) (-1) 5404319552844595 (by norm_num) (by norm_num)
    (by norm_num) (by rw [abs_lt]; norm_num)
  rw [minCropPercent, h]
  norm_num

/-- The `float64` of the constant `maxCropPercent - minCropPercent = 0.3`. -/
theorem float64_diff :
    float64 (maxCropPercent - minCropPercent) = 5404319552844595 / 2 ^ 54 := by
  have h := @float64_eq_of_near (9 / 10 - 6 / 10) (-2) 5404319552844595 (by norm_num)
    (by norm_num) (by norm_num) (by rw [abs_lt]; norm_num)
  rw [minCropPercent, maxCropPercent, h]
  norm_num

/-- A multiple of `2 ^ (e - 52)` inside the binade of `e` is a `float64`. -/
theorem float64_self {x : ℚ} (e m : Int) (hx : 0 < x) (h1 : (2 : ℚ) ^ e ≤ x)
    (h2 : x < (2 : ℚ) ^ (e + 1)) (h3 : x = (m : ℚ) * (2 : ℚ) ^ (e - 52)) : float64 x = x := by
  have hp : (0 : ℚ) < (2 : ℚ) ^ (e - 52) := by positivity
  have h := @float64_eq_of_near x e m hx h1 h2 (by
    rw [h3, mul_div_assoc, div_self hp.ne', mul_one, sub_self, abs_zero]
    norm_num)
  rw [h, ← h3]

theorem cropFraction_zero : cropFraction 0 = 5404319552844595 / 2 ^ 53 := by
  unfold cropFraction
  rw [zero_mul, float64_zero, add_zero, float64_min]
  exact float64_self (-1) 5404319552844595 (by norm_num) (by norm_num) (by norm_num)
    (by norm_num)

theorem cropFraction_half : cropFraction (1 / 2) = 3 / 4 := by
  unfold cropFraction
  rw [float64_min, float64_diff]
  have h1 : float64 (1 / 2 * (5404319552844595 / 2 ^ 54)) = 5404319552844595 / 2 ^ 55 := by
    have h := @float64_self (5404319552844595 / 2 ^ 55) (-3) 5404319552844595
      (by norm_num) (by norm_num) (by norm_num) (by norm_num)
    rw [← h]
    norm_num
  rw [h1]
  have h := @float64_eq_of_near (5404319552844595 / 2 ^ 53 + 5404319552844595 / 2 ^ 55) (-1)
    6755399441055744 (by norm_num) (by norm_num) (by norm_num) (by rw [abs_lt]; norm_num)
  rw [h]
  norm_num

theorem cropFraction_three_quarters : cropFraction (3 / 4) = 3715469692580659 / 2 ^ 52 := by
  unfold cropFraction
  rw [float64_min, float64_diff]
  have h1 : float64 (3 / 4 * (5404319552844595 / 2 ^ 54)) = 2026619832316723 / 2 ^ 53 := by
    have h := @float64_eq_of_tie (3 / 4 * (5404319552844595 / 2 ^ 54)) (-3) 8106479329266892
      (by norm_num) (by norm_num) (by norm_num) (by norm_num)
    rw [h]
    norm_num
  rw [h1]
  have h := @float64_self (5404319552844595 / 2 ^ 53 + 2026619832316723 / 2 ^ 53) (-1)
    7430939385161318 (by norm_num) (by norm_num) (by norm_num) (by norm_num)
  rw [h]
  norm_num

/-- The largest draw of `rand.Float64`, `1 - 2 ^ (-53)`, gives the largest
fraction, `0.8999999999999999`. -/
theorem cropFraction_last : cropFraction lastDraw = 2026619832316723 / 2 ^ 51 := by
  unfold cropFraction lastDraw
  rw [float64_min, float64_diff]
  have h1 : float64 ((2 ^ 53 - 1) / 2 ^ 53 * (5404319552844595 / 2 ^ 54))
      = 2702159776422297 / 2 ^ 53 := by
    have h := @float64_eq_of_near ((2 ^ 53 - 1) / 2 ^ 53 * (5404319552844595 / 2 ^ 54)) (-2)
      5404319552844594 (by norm_num) (by norm_num) (by norm_num) (by rw [abs_lt]; norm_num)
    rw [h]
    norm_num
  rw [h1]
  have h := @float64_self (5404319552844595 / 2 ^ 53 + 2702159776422297 / 2 ^ 53) (-1)
    8106479329266892 (by norm_num) (by norm_num) (by norm_num) (by norm_num)
  rw [h]
  norm_num

/-! ## Arithmetic of the crop size -/

theorem toInt_of_nonneg {x : ℚ} (hx : 0 ≤ x) : toInt x = ⌊x⌋ := by
  simp [toInt, hx]

theorem inRange_bounds {f : ℚ} (hf : InRange f) :
    5404319552844595 / 2 ^ 53 ≤ f ∧ f < 9 / 10 := by
  unfold InRange at hf
  rw [float64_min, maxCropPercent] at hf
  exact hf

/-- Every draw of `[0, 1)` gives a fraction between the `float64` of `0.6` and
`0.8999999999999999`, the `float64` just below that of `0.9`. -/
theorem cropFraction_range {u : ℚ} (h0 : 0 ≤ u) (h1 : u < 1) :
    5404319552844595 / 2 ^ 53 ≤ cropFraction u ∧
      cropFraction u ≤ 2026619832316723 / 2 ^ 51 := by
  have hd : float64 ((5404319552844595 : ℚ) / 2 ^ 54) = 5404319552844595 / 2 ^ 54 :=
    float64_self (-2) 5404319552844595 (by norm_num) (by norm_num) (by norm_num) (by norm_num)
  have hm : float64 ((5404319552844595 : ℚ) / 2 ^ 53) = 5404319552844595 / 2 ^ 53 :=
    float64_self (-1) 5404319552844595 (by norm_num) (by norm_num) (by norm_num) (by norm_num)
  have ht : float64 ((5404319552844595 : ℚ) / 2 ^ 53 + 5404319552844595 / 2 ^ 54)
      = 2026619832316723 / 2 ^ 51 := by
    have h := @float64_eq_of_tie (5404319552844595 / 2 ^ 53 + 5404319552844595 / 2 ^ 54) (-1)
      8106479329266892 (by norm_num) (by norm_num) (by norm_num) (by norm_num)
    rw [h]
    norm_num
  have t0 : 0 ≤ float64 (u * (5404319552844595 / 2 ^ 54)) :=
    float64_nonneg (mul_nonneg h0 (by norm_num))
  have t1 : float64 (u * (5404319552844595 / 2 ^ 54)) ≤ 5404319552844595 / 2 ^ 54 := by
    have hle : u * (5404319552844595 / 2 ^ 54) ≤ (5404319552844595 : ℚ) / 2 ^ 54 := by
      nlinarith
    exact le_trans (float64_mono (mul_nonneg h0 (by norm_num)) hle) hd.le
  unfold cropFraction
  rw [float64_min, float64_diff]
  constructor
  · have hle : (5404319552844595 : ℚ) / 2 ^ 53
        ≤ 5404319552844595 / 2 ^ 53 + float64 (u * (5404319552844595 / 2 ^ 54)) := by
      linarith
    exact le_trans hm.ge (float64_mono (by norm_num) hle)
  · have hle : (5404319552844595 : ℚ) / 2 ^ 53 + float64 (u * (5404319552844595 / 2 ^ 54))
        ≤ 5404319552844595 / 2 ^ 53 + 5404319552844595 / 2 ^ 54 := by
      linarith
    exact le_trans (float64_mono (add_nonneg (by norm_num) t0) hle) ht.le

/-- The contract of `rand.Float64`, a value of `[0, 1)`, puts the fraction in range. -/
theorem inRange_cropFraction {u : ℚ} (h0 : 0 ≤ u) (h1 : u < 1) : InRange (cropFraction u) := by
  obtain ⟨a, b⟩ := cropFraction_range h0 h1
  unfold InRange
  rw [float64_min, maxCropPercent]
  constructor
  · exact a
  · refine lt_of_le_of_lt b ?_
    norm_num

/-- The two roundings of `float64(orig) * f`, for a non-negative dimension. -/
theorem product_bounds {w f : ℚ} (hw : 0 ≤ w) (hf : 0 ≤ f) :
    w * f * (1 - 1 / 2 ^ 51) ≤ float64 (float64 w * f) ∧
      float64 (float64 w * f) ≤ w * f * (1 + 1 / 2 ^ 51) := by
  obtain ⟨a1, a2⟩ := float64_bounds hw
  have a0 := float64_nonneg hw
  have x0 : 0 ≤ float64 w * f := mul_nonneg a0 hf
  obtain ⟨y1, y2⟩ := float64_bounds x0
  have x1 : w * (1 - 1 / 2 ^ 53) * f ≤ float64 w * f := mul_le_mul_of_nonneg_right a1 hf
  have x2 : float64 w * f ≤ w * (1 + 1 / 2 ^ 53) * f := mul_le_mul_of_nonneg_right a2 hf
  have hwf := mul_nonneg hw hf
  constructor
  · have s1 : w * (1 - 1 / 2 ^ 53) * f * (1 - 1 / 2 ^ 53) ≤ float64 w * f * (1 - 1 / 2 ^ 53) :=
      mul_le_mul_of_nonneg_right x1 (by norm_num)
    have s2 : w * f * (1 - 1 / 2 ^ 51) ≤ w * (1 - 1 / 2 ^ 53) * f * (1 - 1 / 2 ^ 53) := by
      have e : w * (1 - 1 / 2 ^ 53) * f * (1 - 1 / 2 ^ 53)
          = w * f * ((1 - 1 / 2 ^ 53) * (1 - 1 / 2 ^ 53)) := by ring
      rw [e]
      exact mul_le_mul_of_nonneg_left (by norm_num) hwf
    linarith
  · have s1 : float64 w * f * (1 + 1 / 2 ^ 53) ≤ w * (1 + 1 / 2 ^ 53) * f * (1 + 1 / 2 ^ 53) :=
      mul_le_mul_of_nonneg_right x2 (by norm_num)
    have s2 : w * (1 + 1 / 2 ^ 53) * f * (1 + 1 / 2 ^ 53) ≤ w * f * (1 + 1 / 2 ^ 51) := by
      have e : w * (1 + 1 / 2 ^ 53) * f * (1 + 1 / 2 ^ 53)
          = w * f * ((1 + 1 / 2 ^ 53) * (1 + 1 / 2 ^ 53)) := by ring
      rw [e]
      exact mul_le_mul_of_nonneg_left (by norm_num) hwf
    linarith

/-- The two roundings of `float64(orig) * f`, for a non-positive dimension. -/
theorem product_bounds_neg {w f : ℚ} (hw : w ≤ 0) (hf : 0 ≤ f) :
    w * f * (1 + 1 / 2 ^ 51) ≤ float64 (float64 w * f) := by
  obtain ⟨a1, a2⟩ := float64_bounds_neg hw
  have a0 : float64 w ≤ 0 := by
    have : w * (1 - 1 / 2 ^ 53) ≤ 0 := mul_nonpos_of_nonpos_of_nonneg hw (by norm_num)
    linarith
  have x0 : float64 w * f ≤ 0 := mul_nonpos_of_nonpos_of_nonneg a0 hf
  obtain ⟨y1, y2⟩ := float64_bounds_neg x0
  have x1 : w * (1 + 1 / 2 ^ 53) * f ≤ float64 w * f := mul_le_mul_of_nonneg_right a1 hf
  have hwf : w * f ≤ 0 := mul_nonpos_of_nonpos_of_nonneg hw hf
  have s1 : w * (1 + 1 / 2 ^ 53) * f * (1 + 1 / 2 ^ 53) ≤ float64 w * f * (1 + 1 / 2 ^ 53) :=
    mul_le_mul_of_nonneg_right x1 (by norm_num)
  have s2 : w * f * (1 + 1 / 2 ^ 51) ≤ w * (1 + 1 / 2 ^ 53) * f * (1 + 1 / 2 ^ 53) := by
    have e : w * (1 + 1 / 2 ^ 53) * f * (1 + 1 / 2 ^ 53)
        = w * f * ((1 + 1 / 2 ^ 53) * (1 + 1 / 2 ^ 53)) := by ring
    rw [e]
    exact mul_le_mul_of_nonpos_left (by norm_num) hwf
  linarith

theorem cropSize_eq_floor {orig : Int} {u : ℚ} (h0 : 0 ≤ orig) (hf : InRange (cropFraction u)) :
    cropSize orig u = ⌊float64 (float64 (orig : ℚ) * cropFraction u)⌋ := by
  have hb := inRange_bounds hf
  have h0q : (0 : ℚ) ≤ (orig : ℚ) := by exact_mod_cast h0
  have hp := (product_bounds h0q (by linarith : (0 : ℚ) ≤ cropFraction u)).1
  have : 0 ≤ (orig : ℚ) * cropFraction u * (1 - 1 / 2 ^ 51) :=
    mul_nonneg (mul_nonneg h0q (by linarith)) (by norm_num)
  exact toInt_of_nonneg (by linarith)

theorem cropSize_nonneg {orig : Int} {u : ℚ} (h0 : 0 ≤ orig) (hf : InRange (cropFraction u)) :
    0 ≤ cropSize orig u := by
  have hb := inRange_bounds hf
  have h0q : (0 : ℚ) ≤ (orig : ℚ) := by exact_mod_cast h0
  have hp := (product_bounds h0q (by linarith : (0 : ℚ) ≤ cropFraction u)).1
  have : 0 ≤ (orig : ℚ) * cropFraction u * (1 - 1 / 2 ^ 51) :=
    mul_nonneg (mul_nonneg h0q (by linarith)) (by norm_num)
  rw [cropSize_eq_floor h0 hf]
  exact Int.floor_nonneg.mpr (by linarith)

/-- The rounded product stays below `(0.9 + 2 ^ (-50)) * orig`. -/
theorem product_lt {orig : Int} {u : ℚ} (h1 : 1 ≤ orig) (hf : InRange (cropFraction u)) :
    float64 (float64 (orig : ℚ) * cropFraction u) < (9 / 10 + 1 / 2 ^ 50) * (orig : ℚ) := by
  have hb := inRange_bounds hf
  have h1q : (1 : ℚ) ≤ (orig : ℚ) := by exact_mod_cast h1
  have hp := (product_bounds (by linarith : (0 : ℚ) ≤ (orig : ℚ))
    (by linarith : (0 : ℚ) ≤ cropFraction u)).2
  have s : (orig : ℚ) * cropFraction u * (1 + 1 / 2 ^ 51)
      ≤ (orig : ℚ) * (9 / 10) * (1 + 1 / 2 ^ 51) := by
    refine mul_le_mul_of_nonneg_right ?_ (by norm_num)
    exact mul_le_mul_of_nonneg_left hb.2.le (by linarith)
  have t : (orig : ℚ) * (9 / 10) * (1 + 1 / 2 ^ 51) < (9 / 10 + 1 / 2 ^ 50) * (orig : ℚ) := by
    have e : (orig : ℚ) * (9 / 10) * (1 + 1 / 2 ^ 51)
        = (9 / 10 * (1 + 1 / 2 ^ 51)) * (orig : ℚ) := by ring
    rw [e]
    exact mul_lt_mul_of_pos_right (by norm_num) (by linarith)
  linarith

theorem cropSize_lt {orig : Int} {u : ℚ} (h1 : 1 ≤ orig) (hf : InRange (cropFraction u)) :
    cropSize orig u < orig := by
  have h := product_lt h1 hf
  have h1q : (1 : ℚ) ≤ (orig : ℚ) := by exact_mod_cast h1
  rw [cropSize_eq_floor (by omega) hf, Int.floor_lt]
  linarith

theorem cropSize_pos {orig : Int} {u : ℚ} (h2 : 2 ≤ orig) (hf : InRange (cropFraction u)) :
    1 ≤ cropSize orig u := by
  have hb := inRange_bounds hf
  have h2q : (2 : ℚ) ≤ (orig : ℚ) := by exact_mod_cast h2
  have hp := (product_bounds (by linarith : (0 : ℚ) ≤ (orig : ℚ))
    (by linarith : (0 : ℚ) ≤ cropFraction u)).1
  have s : 2 * (5404319552844595 / 2 ^ 53) * (1 - 1 / 2 ^ 51)
      ≤ (orig : ℚ) * cropFraction u * (1 - 1 / 2 ^ 51) := by
    refine mul_le_mul_of_nonneg_right ?_ (by norm_num)
    exact mul_le_mul h2q hb.1 (by norm_num) (by linarith)
  have t : (1 : ℚ) ≤ 2 * (5404319552844595 / 2 ^ 53) * (1 - 1 / 2 ^ 51) := by norm_num
  rw [cropSize_eq_floor (by omega) hf]
  apply Int.le_floor.mpr
  push_cast
  linarith

/-- A dimension of one pixel gives a crop size of zero. -/
theorem cropSize_one {u : ℚ} (hf : InRange (cropFraction u)) : cropSize 1 u = 0 := by
  have a := @cropSize_nonneg 1 u (by omega) hf
  have b := @cropSize_lt 1 u (by omega) hf
  omega

/-- From eleven pixels on, at least two pixels of free space remain. -/
theorem two_le_free {orig : Int} {u : ℚ} (h11 : 11 ≤ orig) (hf : InRange (cropFraction u)) :
    2 ≤ orig - cropSize orig u := by
  have h := product_lt (by omega : 1 ≤ orig) hf
  have h11q : (11 : ℚ) ≤ (orig : ℚ) := by exact_mod_cast h11
  have h' : cropSize orig u < orig - 1 := by
    rw [cropSize_eq_floor (by omega) hf, Int.floor_lt]
    push_cast
    linarith
  omega

theorem le_cropSize_of_nonpos {orig : Int} {u : ℚ} (h0 : orig ≤ 0)
    (hf : InRange (cropFraction u)) : orig ≤ cropSize orig u := by
  have hb := inRange_bounds hf
  have h0q : (orig : ℚ) ≤ 0 := by exact_mod_cast h0
  have hp := product_bounds_neg h0q (by linarith : (0 : ℚ) ≤ cropFraction u)
  have s : (orig : ℚ) ≤ (orig : ℚ) * cropFraction u * (1 + 1 / 2 ^ 51) := by
    have e : (orig : ℚ) * cropFraction u * (1 + 1 / 2 ^ 51)
        = (orig : ℚ) * (cropFraction u * (1 + 1 / 2 ^ 51)) := by ring
    rw [e]
    have k : cropFraction u * (1 + 1 / 2 ^ 51) ≤ 1 := by
      have : cropFraction u * (1 + 1 / 2 ^ 51) ≤ 9 / 10 * (1 + 1 / 2 ^ 51) :=
        mul_le_mul_of_nonneg_right hb.2.le (by norm_num)
      have : (9 / 10 : ℚ) * (1 + 1 / 2 ^ 51) ≤ 1 := by norm_num
      linarith
    have := mul_le_mul_of_nonpos_left k h0q
    linarith
  have hy : (orig : ℚ) ≤ float64 (float64 (orig : ℚ) * cropFraction u) := le_trans s hp
  unfold cropSize toInt
  split
  · have : (0 : Int) ≤ ⌊float64 (float64 (orig : ℚ) * cropFraction u)⌋ :=
      Int.floor_nonneg.mpr (by assumption)
    omega
  · have h2 := Int.le_ceil (float64 (float64 (orig : ℚ) * cropFraction u))
    have : (orig : ℚ) ≤ (⌈float64 (float64 (orig : ℚ) * cropFraction u)⌉ : ℚ) :=
      le_trans hy h2
    exact_mod_cast this

/-- A number just below a positive integer `n < 2 ^ 53`, within a quarter of
the relative spacing, rounds to `n`. -/
theorem float64_eq_int_of_le (n : Int) (hlt : n < 2 ^ 53) {x : ℚ} (hx0 : 0 < x)
    (hxn : x ≤ (n : ℚ)) (hnear : ((n : ℚ) - x) * 2 ^ 54 ≤ x) : float64 x = n := by
  have hs := ulp_spec hx0.ne'
  rw [abs_of_pos hx0] at hs
  have hn53 : (n : ℚ) < (2 : ℚ) ^ (53 : Int) := by
    have h53 : (n : ℚ) < (2 : ℚ) ^ (53 : ℕ) := by exact_mod_cast hlt
    have e53 : (2 : ℚ) ^ (53 : ℕ) = (2 : ℚ) ^ (53 : Int) := by norm_num
    rw [← e53]
    exact h53
  have he : Int.log 2 x < 53 := by
    have h1 : (2 : ℚ) ^ Int.log 2 x ≤ x := by
      have := Int.zpow_log_le_self (by decide : 1 < (2 : ℕ)) hx0
      exact_mod_cast this
    have h2 := lt_of_le_of_lt (le_trans h1 hxn) hn53
    exact (zpow_lt_zpow_iff_right₀ (by norm_num : (1 : ℚ) < 2)).mp h2
  obtain ⟨k, hk⟩ : ∃ k : ℕ, (52 : Int) - Int.log 2 x = k :=
    Int.eq_ofNat_of_zero_le (by omega)
  have hu : ulp x = ((2 : ℚ) ^ k)⁻¹ := by
    unfold ulp
    have : Int.log 2 |x| - 52 = -(k : Int) := by
      rw [abs_of_pos hx0]
      omega
    rw [this, zpow_neg, zpow_natCast]
  have hpk : (0 : ℚ) < (2 : ℚ) ^ k := by positivity
  have hd : x / ulp x = x * (2 : ℚ) ^ k := by
    rw [hu]
    field_simp
  have hb : x * (2 : ℚ) ^ k < 2 ^ 53 := by
    have := hs.2
    rw [hu] at this
    have h' : x * (2 : ℚ) ^ k < 2 ^ 53 * ((2 : ℚ) ^ k)⁻¹ * (2 : ℚ) ^ k :=
      mul_lt_mul_of_pos_right this hpk
    rw [mul_assoc, inv_mul_cancel₀ hpk.ne', mul_one] at h'
    exact h'
  have hm : ((n : ℚ) - x) * 2 ^ 54 * (2 : ℚ) ^ k ≤ x * (2 : ℚ) ^ k :=
    mul_le_mul_of_nonneg_right hnear hpk.le
  have hnx : 0 ≤ ((n : ℚ) - x) * (2 : ℚ) ^ k := mul_nonneg (by linarith) hpk.le
  have hnear' : |x / ulp x - ((n * 2 ^ k : Int) : ℚ)| < 1 / 2 := by
    rw [hd, abs_lt]
    push_cast
    constructor <;> nlinarith
  unfold float64
  rw [if_neg hx0.ne', roundHalfEven_eq_of_near hnear', hu]
  push_cast
  field_simp

/-- The lower bound of the crop size, for a dimension a PNG can have. -/
theorem cropSize_ge_min {orig : Int} {u : ℚ} (h1 : 1 ≤ orig) (hlt : orig < 2 ^ 31)
    (hf : InRange (cropFraction u)) : ⌊(6 / 10 : ℚ) * (orig : ℚ)⌋ ≤ cropSize orig u := by
  have hb := inRange_bounds hf
  have h1q : (1 : ℚ) ≤ (orig : ℚ) := by exact_mod_cast h1
  have hltq : (orig : ℚ) < 2 ^ 31 := by exact_mod_cast hlt
  have hW : float64 (orig : ℚ) = orig :=
    float64_intCast orig (by rw [abs_of_nonneg (by omega)]; omega)
  have hn1 := Int.floor_le ((6 / 10 : ℚ) * (orig : ℚ))
  have hn0 : 0 ≤ ⌊(6 / 10 : ℚ) * (orig : ℚ)⌋ := Int.floor_nonneg.mpr (by linarith)
  have hn0q : (0 : ℚ) ≤ (⌊(6 / 10 : ℚ) * (orig : ℚ)⌋ : ℚ) := by exact_mod_cast hn0
  have hn31 : ⌊(6 / 10 : ℚ) * (orig : ℚ)⌋ < 2 ^ 53 := by
    have : (⌊(6 / 10 : ℚ) * (orig : ℚ)⌋ : ℚ) < ((2 ^ 53 : Int) : ℚ) := by
      push_cast
      linarith
    exact_mod_cast this
  have hx0 : (0 : ℚ) < (orig : ℚ) * (5404319552844595 / 2 ^ 53) := by
    apply mul_pos <;> [linarith; norm_num]
  have hxf : (orig : ℚ) * (5404319552844595 / 2 ^ 53) ≤ (orig : ℚ) * cropFraction u :=
    mul_le_mul_of_nonneg_left hb.1 (by linarith)
  have key : (⌊(6 / 10 : ℚ) * (orig : ℚ)⌋ : ℚ)
      ≤ float64 ((orig : ℚ) * (5404319552844595 / 2 ^ 53)) := by
    by_cases hc : (⌊(6 / 10 : ℚ) * (orig : ℚ)⌋ : ℚ) ≤ (orig : ℚ) * (5404319552844595 / 2 ^ 53)
    · have := float64_mono hn0q hc
      rw [float64_intCast _ (by rw [abs_of_nonneg hn0]; exact hn31)] at this
      exact this
    · push_neg at hc
      rw [float64_eq_int_of_le _ hn31 hx0 hc.le (by linarith)]
  rw [cropSize_eq_floor (by omega) hf, hW]
  apply Int.le_floor.mpr
  exact le_trans key (float64_mono hx0.le hxf)

/-- The upper bound of the crop size, for a dimension a PNG can have. -/
theorem cropSize_le_max {orig : Int} {u : ℚ} (h1 : 1 ≤ orig) (hlt : orig < 2 ^ 31)
    (hf : InRange (cropFraction u)) : (cropSize orig u : ℚ) ≤ 9 / 10 * (orig : ℚ) := by
  have h1q : (1 : ℚ) ≤ (orig : ℚ) := by exact_mod_cast h1
  have hltq : (orig : ℚ) < 2 ^ 31 := by exact_mod_cast hlt
  have hp := product_lt h1 hf
  have hn1 := Int.floor_le ((9 / 10 : ℚ) * (orig : ℚ))
  have hn2 := Int.lt_floor_add_one ((9 / 10 : ℚ) * (orig : ℚ))
  have hi : 9 * orig < 10 * ⌊(9 / 10 : ℚ) * (orig : ℚ)⌋ + 10 := by
    have : ((9 * orig : Int) : ℚ) < ((10 * ⌊(9 / 10 : ℚ) * (orig : ℚ)⌋ + 10 : Int) : ℚ) := by
      push_cast
      linarith
    exact_mod_cast this
  have hi' : 9 * orig ≤ 10 * ⌊(9 / 10 : ℚ) * (orig : ℚ)⌋ + 9 := by omega
  have hq : (9 : ℚ) * (orig : ℚ) ≤ 10 * (⌊(9 / 10 : ℚ) * (orig : ℚ)⌋ : ℚ) + 9 := by
    exact_mod_cast hi'
  have hle : cropSize orig u ≤ ⌊(9 / 10 : ℚ) * (orig : ℚ)⌋ := by
    have : cropSize orig u < ⌊(9 / 10 : ℚ) * (orig : ℚ)⌋ + 1 := by
      rw [cropSize_eq_floor (by omega) hf, Int.floor_lt]
      push_cast
      have e : (1 : ℚ) / 2 ^ 50 * (orig : ℚ) < 1 / 10 := by
        have : (1 : ℚ) / 2 ^ 50 * (orig : ℚ) < 1 / 2 ^ 50 * 2 ^ 31 :=
          mul_lt_mul_of_pos_left hltq (by norm_num)
        have : (1 : ℚ) / 2 ^ 50 * 2 ^ 31 < 1 / 10 := by norm_num
        linarith
      linarith
    omega
  have : (cropSize orig u : ℚ) ≤ (⌊(9 / 10 : ℚ) * (orig : ℚ)⌋ : ℚ) := by exact_mod_cast hle
  linarith

/-- Evaluation of a crop size whose exact product is not just below an integer. -/
theorem cropSize_eq_of {orig : Int} {u f : ℚ} {n : Int} (hf : cropFraction u = f)
    (hr : InRange f) (h1 : 1 ≤ orig) (hlt : orig < 2 ^ 31) (hn : 0 ≤ n)
    (hlo : (n : ℚ) ≤ (orig : ℚ) * f)
    (hhi : (orig : ℚ) * f * (1 + 1 / 2 ^ 51) < (n : ℚ) + 1) : cropSize orig u = n := by
  have hb := inRange_bounds hr
  have h1q : (1 : ℚ) ≤ (orig : ℚ) := by exact_mod_cast h1
  have hltq : (orig : ℚ) < 2 ^ 31 := by exact_mod_cast hlt
  have hW : float64 (orig : ℚ) = orig :=
    float64_intCast orig (by rw [abs_of_nonneg (by omega)]; omega)
  have hp := (product_bounds (by linarith : (0 : ℚ) ≤ (orig : ℚ))
    (by linarith : (0 : ℚ) ≤ f)).2
  have hn0q : (0 : ℚ) ≤ (n : ℚ) := by exact_mod_cast hn
  have hn53 : n < 2 ^ 53 := by
    have h' : (orig : ℚ) * f ≤ (orig : ℚ) * 1 :=
      mul_le_mul_of_nonneg_left (by linarith) (by linarith)
    have : (n : ℚ) < ((2 ^ 53 : Int) : ℚ) := by
      push_cast
      linarith
    exact_mod_cast this
  have hlo' := float64_mono hn0q hlo
  rw [float64_intCast _ (by rw [abs_of_nonneg hn]; exact hn53)] at hlo'
  rw [← hf] at hr
  rw [cropSize_eq_floor (by omega) hr, hf, Int.floor_eq_iff]
  constructor
  · rw [hW]
    exact hlo'
  · linarith

/-! ## The start range -/

theorem halfFree_pos (orig crop : Int) : 0 < halfFree orig crop := by
  unfold halfFree
  simp only
  split <;> omega

theorem halfFree_eq {orig crop : Int} (h : 0 ≤ orig - crop) :
    halfFree orig crop = if (orig - crop) / 2 ≤ 0 then 1 else (orig - crop) / 2 := by
  unfold halfFree
  simp only [Int.tdiv_eq_ediv h (by decide : (0 : Int) ≤ 2)]

theorem halfFree_of_lt_two {orig crop : Int} (h0 : 0 ≤ orig - crop) (h : orig - crop < 2) :
    halfFree orig crop = 1 := by
  rw [halfFree_eq h0]
  split <;> omega

theorem halfFree_of_two_le {orig crop : Int} (h : 2 ≤ orig - crop) :
    halfFree orig crop = (orig - crop) / 2 := by
  rw [halfFree_eq (by omega)]
  split <;> omega

theorem Intn_admissible {draw : Int → Int} (hd : Admissible draw) {n : Int} (hn : 0 < n) :
    ∃ s, Intn draw n = some s ∧ 0 ≤ s ∧ s < n := by
  refine ⟨draw n, ?_, hd n hn⟩
  simp [Intn, not_le.mpr hn]

theorem start1_eq (orig crop : Int) (draw : Int → Int) :
    start1 orig crop draw = some (draw (halfFree orig crop)) := by
  have := halfFree_pos orig crop
  simp [start1, Intn, not_le.mpr this]

theorem start2_eq (orig crop : Int) (draw : Int → Int) :
    start2 orig crop draw = some (halfFree orig crop + draw (halfFree orig crop)) := by
  have := halfFree_pos orig crop
  simp [start2, Intn, not_le.mpr this]

theorem Rect_of_le {x0 y0 x1 y1 : Int} (hx : x0 ≤ x1) (hy : y0 ≤ y1) :
    Rect x0 y0 x1 y1 = ⟨⟨x0, y0⟩, ⟨x1, y1⟩⟩ := by
  simp [Rect, not_lt.mpr hx, not_lt.mpr hy]

/-- The size guard along one axis passes exactly for a dimension of at least
one pixel. -/
theorem guard_iff {orig : Int} {u : ℚ} (hf : InRange (cropFraction u)) :
    orig > cropSize orig u ↔ 1 ≤ orig := by
  constructor
  · intro h
    by_contra hc
    have := le_cropSize_of_nonpos (by omega : orig ≤ 0) hf
    omega
  · intro h
    exact cropSize_lt h hf

/-! ## The shape of the two crops -/

theorem crop1_of_guard (bounds : Rectangle) (d : Draws)
    (hW : 1 ≤ bounds.Dx) (hH : 1 ≤ bounds.Dy)
    (hfW : InRange (cropFraction d.uW)) (hfH : InRange (cropFraction d.uH)) :
    crop1 bounds d = some (Crop.rect
      ⟨⟨d.iX (halfFree bounds.Dx (cropSize bounds.Dx d.uW)) + bounds.Min.X,
        d.iY (halfFree bounds.Dy (cropSize bounds.Dy d.uH)) + bounds.Min.Y⟩,
       ⟨d.iX (halfFree bounds.Dx (cropSize bounds.Dx d.uW)) + cropSize bounds.Dx d.uW
          + bounds.Min.X,
        d.iY (halfFree bounds.Dy (cropSize bounds.Dy d.uH)) + cropSize bounds.Dy d.uH
          + bounds.Min.Y⟩⟩) := by
  have gW := cropSize_lt hW hfW
  have gH := cropSize_lt hH hfH
  have nW := cropSize_nonneg (by omega : 0 ≤ bounds.Dx) hfW
  have nH := cropSize_nonneg (by omega : 0 ≤ bounds.Dy) hfH
  unfold crop1
  simp only [gt_iff_lt, gW, gH, and_self, if_true, start1_eq]
  rw [Rect_of_le (by omega) (by omega)]
  rfl

theorem crop2_of_guard (bounds : Rectangle) (d : Draws)
    (hW : 1 ≤ bounds.Dx) (hH : 1 ≤ bounds.Dy)
    (hfW : InRange (cropFraction d.uW)) (hfH : InRange (cropFraction d.uH)) :
    crop2 bounds d = some (Crop.rect
      ⟨⟨halfFree bounds.Dx (cropSize bounds.Dx d.uW)
          + d.iX (halfFree bounds.Dx (cropSize bounds.Dx d.uW)) + bounds.Min.X,
        halfFree bounds.Dy (cropSize bounds.Dy d.uH)
          + d.iY (halfFree bounds.Dy (cropSize bounds.Dy d.uH)) + bounds.Min.Y⟩,
       ⟨halfFree bounds.Dx (cropSize bounds.Dx d.uW)
          + d.iX (halfFree bounds.Dx (cropSize bounds.Dx d.uW)) + cropSize bounds.Dx d.uW
          + bounds.Min.X,
        halfFree bounds.Dy (cropSize bounds.Dy d.uH)
          + d.iY (halfFree bounds.Dy (cropSize bounds.Dy d.uH)) + cropSize bounds.Dy d.uH
          + bounds.Min.Y⟩⟩) := by
  have gW := cropSize_lt hW hfW
  have gH := cropSize_lt hH hfH
  have nW := cropSize_nonneg (by omega : 0 ≤ bounds.Dx) hfW
  have nH := cropSize_nonneg (by omega : 0 ≤ bounds.Dy) hfH
  unfold crop2
  simp only [gt_iff_lt, gW, gH, and_self, if_true, start2_eq]
  rw [Rect_of_le (by omega) (by omega)]
  rfl

theorem crop1_of_not_guard (bounds : Rectangle) (d : Draws)
    (hfW : InRange (cropFraction d.uW)) (hfH : InRange (cropFraction d.uH))
    (h : bounds.Dx ≤ 0 ∨ bounds.Dy ≤ 0) : crop1 bounds d = some Crop.skipped := by
  have gW := @guard_iff bounds.Dx d.uW hfW
  have gH := @guard_iff bounds.Dy d.uH hfH
  unfold crop1
  simp only
  rw [if_neg]
  rintro ⟨a, b⟩
  have := gW.mp a
  have := gH.mp b
  omega

theorem crop2_of_not_guard (bounds : Rectangle) (d : Draws)
    (hfW : InRange (cropFraction d.uW)) (hfH : InRange (cropFraction d.uH))
    (h : bounds.Dx ≤ 0 ∨ bounds.Dy ≤ 0) : crop2 bounds d = some Crop.skipped := by
  have gW := @guard_iff bounds.Dx d.uW hfW
  have gH := @guard_iff bounds.Dy d.uH hfH
  unfold crop2
  simp only
  rw [if_neg]
  rintro ⟨a, b⟩
  have := gW.mp a
  have := gH.mp b
  omega

theorem halfFree_cases {orig crop : Int} (h : 1 ≤ orig - crop) :
    (orig - crop = 1 ∧ halfFree orig crop = 1) ∨
      (2 ≤ orig - crop ∧ halfFree orig crop = (orig - crop) / 2) := by
  by_cases h2 : 2 ≤ orig - crop
  · exact Or.inr ⟨h2, halfFree_of_two_le h2⟩
  · exact Or.inl ⟨by omega, halfFree_of_lt_two (by omega) (by omega)⟩

theorem sampleDraws1_valid : sampleDraws1.Valid := by
  refine ⟨?_, ?_, ?_, ?_⟩
  · exact inRange_cropFraction (by norm_num [sampleDraws1]) (by norm_num [sampleDraws1])
  · exact inRange_cropFraction (by norm_num [sampleDraws1]) (by norm_num [sampleDraws1])
  · intro n hn; simp only [sampleDraws1]; omega
  · intro n hn; simp only [sampleDraws1]; omega

theorem sampleDraws2_valid : sampleDraws2.Valid := by
  refine ⟨?_, ?_, ?_, ?_⟩
  · exact inRange_cropFraction (by norm_num [sampleDraws2]) (by norm_num [sampleDraws2])
  · exact inRange_cropFraction (by norm_num [sampleDraws2]) (by norm_num [sampleDraws2])
  · intro n hn; simp only [sampleDraws2]; omega
  · intro n hn; simp only [sampleDraws2]; omega

theorem sampleDraws3_valid : sampleDraws3.Valid := by
  refine ⟨?_, ?_, ?_, ?_⟩
  · exact inRange_cropFraction (by norm_num [sampleDraws3, lastDraw])
      (by norm_num [sampleDraws3, lastDraw])
  · exact inRange_cropFraction (by norm_num [sampleDraws3]) (by norm_num [sampleDraws3])
  · intro n hn; simp only [sampleDraws3]; omega
  · intro n hn; simp only [sampleDraws3]; omega

theorem processImage_of_guard (bounds : Rectangle) (d1 d2 : Draws)
    (hW : 1 ≤ bounds.Dx) (hH : 1 ≤ bounds.Dy) (h1 : d1.Valid) (h2 : d2.Valid) :
    ∃ r1 r2, crop1 bounds d1 = some (Crop.rect r1) ∧ crop2 bounds d2 = some (Crop.rect r2) ∧
      processImage bounds d1 d2 = some [(r1, 1), (r2, 2)] := by
  refine ⟨_, _, crop1_of_guard bounds d1 hW hH h1.1 h1.2.1,
    crop2_of_guard bounds d2 hW hH h2.1 h2.2.1, ?_⟩
  simp [processImage, crop1_of_guard bounds d1 hW hH h1.1 h1.2.1,
    crop2_of_guard bounds d2 hW hH h2.1 h2.2.1, saveCalls]

theorem crop1_inv {bounds : Rectangle} {d : Draws} {r : Rectangle}
    (h : crop1 bounds d = some (Crop.rect r))
    (hfW : InRange (cropFraction d.uW)) (hfH : InRange (cropFraction d.uH)) :
    1 ≤ bounds.Dx ∧ 1 ≤ bounds.Dy ∧
    r = ⟨⟨d.iX (halfFree bounds.Dx (cropSize bounds.Dx d.uW)) + bounds.Min.X,
        d.iY (halfFree bounds.Dy (cropSize bounds.Dy d.uH)) + bounds.Min.Y⟩,
       ⟨d.iX (halfFree bounds.Dx (cropSize bounds.Dx d.uW)) + cropSize bounds.Dx d.uW
          + bounds.Min.X,
        d.iY (halfFree bounds.Dy (cropSize bounds.Dy d.uH)) + cropSize bounds.Dy d.uH
          + bounds.Min.Y⟩⟩ := by
  by_cases hg : 1 ≤ bounds.Dx ∧ 1 ≤ bounds.Dy
  · refine ⟨hg.1, hg.2, ?_⟩
    rw [crop1_of_guard bounds d hg.1 hg.2 hfW hfH] at h
    injection h with h
    injection h with h
    exact h.symm
  · rw [crop1_of_not_guard bounds d hfW hfH (by omega)] at h
    injection h with h
    cases h

theorem crop2_inv {bounds : Rectangle} {d : Draws} {r : Rectangle}
    (h : crop2 bounds d = some (Crop.rect r))
    (hfW : InRange (cropFraction d.uW)) (hfH : InRange (cropFraction d.uH)) :
    1 ≤ bounds.Dx ∧ 1 ≤ bounds.Dy ∧
    r = ⟨⟨halfFree bounds.Dx (cropSize bounds.Dx d.uW)
          + d.iX (halfFree bounds.Dx (cropSize bounds.Dx d.uW)) + bounds.Min.X,
        halfFree bounds.Dy (cropSize bounds.Dy d.uH)
          + d.iY (halfFree bounds.Dy (cropSize bounds.Dy d.uH)) + bounds.Min.Y⟩,
       ⟨halfFree bounds.Dx (cropSize bounds.Dx d.uW)
          + d.iX (halfFree bounds.Dx (cropSize bounds.Dx d.uW)) + cropSize bounds.Dx d.uW
          + bounds.Min.X,
        halfFree bounds.Dy (cropSize bounds.Dy d.uH)
          + d.iY (halfFree bounds.Dy (cropSize bounds.Dy d.uH)) + cropSize bounds.Dy d.uH
          + bounds.Min.Y⟩⟩ := by
  by_cases hg : 1 ≤ bounds.Dx ∧ 1 ≤ bounds.Dy
  · refine ⟨hg.1, hg.2, ?_⟩
    rw [crop2_of_guard bounds d hg.1 hg.2 hfW hfH] at h
    injection h with h
    injection h with h
    exact h.symm
  · rw [crop2_of_not_guard bounds d hfW hfH (by omega)] at h
    injection h with h
    cases h

/-- C1 (containment): for an image of at least one pixel in each direction,
with any origin, and valid draws, `processImage` hands two rectangles to
`saveCroppedImage`, and both lie inside the bounds of the source image. -/
theorem C1_containment (bounds : Rectangle) (d1 d2 : Draws)
    (hW : 1 ≤ bounds.Dx) (hH : 1 ≤ bounds.Dy) (h1 : d1.Valid) (h2 : d2.Valid) :
    ∃ r1 r2, processImage bounds d1 d2 = some [(r1, 1), (r2, 2)] ∧
      r1.Within bounds ∧ r2.Within bounds := by
  obtain ⟨r1, r2, e1, e2, hp⟩ := processImage_of_guard bounds d1 d2 hW hH h1 h2
  obtain ⟨hfW1, hfH1, hX1, hY1⟩ := h1
  obtain ⟨hfW2, hfH2, hX2, hY2⟩ := h2
  obtain ⟨-, -, rfl⟩ := crop1_inv e1 hfW1 hfH1
  obtain ⟨-, -, rfl⟩ := crop2_inv e2 hfW2 hfH2
  have dx : bounds.Dx = bounds.Max.X - bounds.Min.X := rfl
  have dy : bounds.Dy = bounds.Max.Y - bounds.Min.Y := rfl
  refine ⟨_, _, hp, ?_, ?_⟩
  · have gW := cropSize_lt hW hfW1
    have gH := cropSize_lt hH hfH1
    have cX := halfFree_cases (by omega : 1 ≤ bounds.Dx - cropSize bounds.Dx d1.uW)
    have cY := halfFree_cases (by omega : 1 ≤ bounds.Dy - cropSize bounds.Dy d1.uH)
    have sX := hX1 _ (halfFree_pos bounds.Dx (cropSize bounds.Dx d1.uW))
    have sY := hY1 _ (halfFree_pos bounds.Dy (cropSize bounds.Dy d1.uH))
    simp only [Rectangle.Within]
    refine ⟨?_, ?_, ?_, ?_⟩ <;> omega
  · have gW := cropSize_lt hW hfW2
    have gH := cropSize_lt hH hfH2
    have cX := halfFree_cases (by omega : 1 ≤ bounds.Dx - cropSize bounds.Dx d2.uW)
    have cY := halfFree_cases (by omega : 1 ≤ bounds.Dy - cropSize bounds.Dy d2.uH)
    have sX := hX2 _ (halfFree_pos bounds.Dx (cropSize bounds.Dx d2.uW))
    have sY := hY2 _ (halfFree_pos bounds.Dy (cropSize bounds.Dy d2.uH))
    simp only [Rectangle.Within]
    refine ⟨?_, ?_, ?_, ?_⟩ <;> omega

/-- Witness of C1: the 100×100 image at origin `(3, 4)` with the sample draws. -/
theorem C1_containment_witness :
    (1 ≤ sampleBounds.Dx ∧ 1 ≤ sampleBounds.Dy ∧ sampleDraws1.Valid ∧ sampleDraws2.Valid) ∧
    ∃ r1 r2, processImage sampleBounds sampleDraws1 sampleDraws2 = some [(r1, 1), (r2, 2)] ∧
      r1.Within sampleBounds ∧ r2.Within sampleBounds :=
  ⟨⟨by decide, by decide, sampleDraws1_valid, sampleDraws2_valid⟩,
    C1_containment sampleBounds sampleDraws1 sampleDraws2 (by decide) (by decide)
      sampleDraws1_valid sampleDraws2_valid⟩

/-! ## Crop sizes of the sample inputs -/

theorem floor_eq_of_nat {x : ℚ} {n : Int} (h1 : (n : ℚ) ≤ x) (h2 : x < (n : ℚ) + 1) :
    ⌊x⌋ = n :=
  Int.floor_eq_iff.mpr ⟨h1, h2⟩

theorem cropSize_100_a : cropSize 100 0 = 60 := by
  have hr := @inRange_cropFraction 0 (by norm_num) (by norm_num)
  have lo := @cropSize_ge_min 100 0 (by norm_num) (by norm_num) hr
  have e : ⌊(6 / 10 : ℚ) * ((100 : Int) : ℚ)⌋ = 60 := by
    rw [Int.floor_eq_iff]; norm_num
  rw [e] at lo
  have hi : cropSize 100 0 < 61 := by
    have hp := (@product_bounds ((100 : Int) : ℚ) (cropFraction 0) (by norm_num)
      (by rw [cropFraction_zero]; norm_num)).2
    rw [cropSize_eq_floor (by norm_num) hr, Int.floor_lt]
    rw [cropFraction_zero] at hp ⊢
    refine lt_of_le_of_lt hp ?_
    norm_num
  omega

theorem cropSize_100_b : cropSize 100 (1 / 2) = 75 := by
  have hr := @inRange_cropFraction (1 / 2) (by norm_num) (by norm_num)
  rw [cropFraction_half] at hr
  exact cropSize_eq_of cropFraction_half hr (by norm_num) (by norm_num) (by norm_num)
    (by norm_num) (by norm_num)

theorem cropSize_100_c : cropSize 100 (3 / 4) = 82 := by
  have hr := @inRange_cropFraction (3 / 4) (by norm_num) (by norm_num)
  rw [cropFraction_three_quarters] at hr
  exact cropSize_eq_of cropFraction_three_quarters hr (by norm_num) (by norm_num) (by norm_num)
    (by norm_num) (by norm_num)

theorem cropSize_10_a : cropSize 10 (3 / 4) = 8 := by
  have hr := @inRange_cropFraction (3 / 4) (by norm_num) (by norm_num)
  rw [cropFraction_three_quarters] at hr
  exact cropSize_eq_of cropFraction_three_quarters hr (by norm_num) (by norm_num) (by norm_num)
    (by norm_num) (by norm_num)

theorem cropSize_10_b : cropSize 10 0 = 6 := by
  have hr := @inRange_cropFraction 0 (by norm_num) (by norm_num)
  have lo := @cropSize_ge_min 10 0 (by norm_num) (by norm_num) hr
  have e : ⌊(6 / 10 : ℚ) * ((10 : Int) : ℚ)⌋ = 6 := by
    rw [Int.floor_eq_iff]; norm_num
  rw [e] at lo
  have hi : cropSize 10 0 < 7 := by
    have hp := (@product_bounds ((10 : Int) : ℚ) (cropFraction 0) (by norm_num)
      (by rw [cropFraction_zero]; norm_num)).2
    rw [cropSize_eq_floor (by norm_num) hr, Int.floor_lt]
    rw [cropFraction_zero] at hp ⊢
    refine lt_of_le_of_lt hp ?_
    norm_num
  omega

/-- The product `10 * 0.8999999999999999` is a tie between `9 - 2 ^ (-49)` and
`9`, and rounds to `9`. -/
theorem float64_ten_last : float64 (10 * (2026619832316723 / 2 ^ 51)) = 9 := by
  have h := @float64_eq_of_tie (10 * (2026619832316723 / 2 ^ 51)) 3 5066549580791807
    (by norm_num) (by norm_num) (by norm_num) (by norm_num)
  rw [h]
  norm_num

theorem cropSize_10_last : cropSize 10 lastDraw = 9 := by
  have hW : float64 ((10 : Int) : ℚ) = ((10 : Int) : ℚ) := float64_intCast 10 (by norm_num)
  unfold cropSize
  rw [cropFraction_last, hW]
  push_cast
  rw [float64_ten_last, toInt_of_nonneg (by norm_num)]
  exact floor_eq_of_nat (by norm_num) (by norm_num)

/-- The product `100 * 0.8999999999999999` rounds to `90 - 2 ^ (-46)`. -/
theorem float64_hundred_last :
    float64 (100 * (2026619832316723 / 2 ^ 51)) = 6333186975989759 / 2 ^ 46 := by
  have h := @float64_eq_of_near (100 * (2026619832316723 / 2 ^ 51)) 6 6333186975989759
    (by norm_num) (by norm_num) (by norm_num) (by rw [abs_lt]; norm_num)
  rw [h]
  norm_num

/-- On a dimension of 100 pixels every draw of `[0, 1)` gives a crop size
between 60 and 89. -/
theorem cropSize_100_range {v : ℚ} (h0 : 0 ≤ v) (h1 : v < 1) :
    60 ≤ cropSize 100 v ∧ cropSize 100 v ≤ 89 := by
  have hr := inRange_cropFraction h0 h1
  have hb := cropFraction_range h0 h1
  have lo := @cropSize_ge_min 100 v (by norm_num) (by norm_num) hr
  have e : ⌊(6 / 10 : ℚ) * ((100 : Int) : ℚ)⌋ = 60 := by
    rw [Int.floor_eq_iff]; norm_num
  rw [e] at lo
  have hW : float64 ((100 : Int) : ℚ) = ((100 : Int) : ℚ) := float64_intCast 100 (by norm_num)
  have hi : cropSize 100 v < 90 := by
    rw [cropSize_eq_floor (by norm_num) hr, Int.floor_lt, hW]
    have hm : float64 (((100 : Int) : ℚ) * cropFraction v)
        ≤ float64 (100 * (2026619832316723 / 2 ^ 51)) := by
      refine float64_mono (mul_nonneg (by norm_num) (by linarith [hb.1])) ?_
      push_cast
      linarith [hb.2]
    rw [float64_hundred_last] at hm
    refine lt_of_le_of_lt hm ?_
    norm_num
  omega

/-- C3 (crop size bounds), as the code computes them in `float64`: for a
dimension of at least one pixel and every value `u` of `[0, 1)` that
`rand.Float64` returns, the fraction lies between the `float64` of `0.6` and
`0.9`, and the crop size is strictly below the dimension (crops are never
full-size); for a dimension below `2 ^ 31`, as every PNG has, the crop size
lies between `⌊0.6 * orig⌋` and `0.9 * orig`, both included; for a 100×100
image the crop size is between 60 and 89, and so are the width and the height
of every rectangle that crop 1 or crop 2 produces. -/
theorem C3_crop_size_bounds (orig : Int) (u : ℚ) (h1 : 1 ≤ orig) (h0 : 0 ≤ u) (hu : u < 1) :
    InRange (cropFraction u) ∧
    cropSize orig u < orig ∧
    (orig < 2 ^ 31 →
      ⌊(6 / 10 : ℚ) * (orig : ℚ)⌋ ≤ cropSize orig u ∧
      (cropSize orig u : ℚ) ≤ 9 / 10 * (orig : ℚ)) ∧
    (orig = 100 → 60 ≤ cropSize orig u ∧ cropSize orig u ≤ 89) ∧
    (∀ (bounds : Rectangle) (d : Draws) (r : Rectangle),
      bounds.Dx = 100 → bounds.Dy = 100 →
      0 ≤ d.uW ∧ d.uW < 1 → 0 ≤ d.uH ∧ d.uH < 1 →
      crop1 bounds d = some (Crop.rect r) ∨ crop2 bounds d = some (Crop.rect r) →
      (60 ≤ r.Dx ∧ r.Dx ≤ 89) ∧ (60 ≤ r.Dy ∧ r.Dy ≤ 89)) := by
  have hf := inRange_cropFraction h0 hu
  refine ⟨hf, cropSize_lt h1 hf, ?_, ?_, ?_⟩
  · intro hlt
    exact ⟨cropSize_ge_min h1 hlt hf, cropSize_le_max h1 hlt hf⟩
  · rintro rfl
    exact cropSize_100_range h0 hu
  · intro bounds d r hW hH hdW hdH hr
    have kW := cropSize_100_range hdW.1 hdW.2
    have kH := cropSize_100_range hdH.1 hdH.2
    have hfW := inRange_cropFraction hdW.1 hdW.2
    have hfH := inRange_cropFraction hdH.1 hdH.2
    rcases hr with hr | hr
    · obtain ⟨-, -, rfl⟩ := crop1_inv hr hfW hfH
      simp only [Rectangle.Dx, Rectangle.Dy] at hW hH ⊢
      rw [hW, hH]
      omega
    · obtain ⟨-, -, rfl⟩ := crop2_inv hr hfW hfH
      simp only [Rectangle.Dx, Rectangle.Dy] at hW hH ⊢
      rw [hW, hH]
      omega

/-- Witness of C3 as amended: a dimension of 100 pixels with the draw `3/4`. -/
theorem C3_crop_size_bounds_witness :
    (1 ≤ (100 : Int) ∧ (0 : ℚ) ≤ 3 / 4 ∧ (3 / 4 : ℚ) < 1) ∧
    cropSize 100 (3 / 4) < 100 ∧ 60 ≤ cropSize 100 (3 / 4) ∧ cropSize 100 (3 / 4) ≤ 89 :=
  have h := C3_crop_size_bounds 100 (3 / 4) (by decide) (by norm_num) (by norm_num)
  ⟨⟨by decide, by norm_num, by norm_num⟩, h.2.1, h.2.2.2.1 rfl⟩

/-- Counterexample to C3 as stated: for a dimension of 10 pixels and the
largest draw `1 - 2 ^ (-53)`, whose fraction `0.8999999999999999` is in range,
the code computes the crop size 9, which is not below `0.9 * 10` and is not
the floor `8` of the exact product of the dimension and the fraction. -/
theorem C3_counterexample :
    (1 ≤ (10 : Int) ∧ (0 : ℚ) ≤ lastDraw ∧ lastDraw < 1 ∧ InRange (cropFraction lastDraw)) ∧
    cropSize 10 lastDraw = 9 ∧
    ¬ ((cropSize 10 lastDraw : ℚ) < 9 / 10 * ((10 : Int) : ℚ)) ∧
    ⌊((10 : Int) : ℚ) * cropFraction lastDraw⌋ = 8 := by
  have a : (0 : ℚ) ≤ lastDraw := by norm_num [lastDraw]
  have b : lastDraw < 1 := by norm_num [lastDraw]
  refine ⟨⟨by decide, a, b, inRange_cropFraction a b⟩, cropSize_10_last, ?_, ?_⟩
  · rw [cropSize_10_last]
    norm_num
  · rw [cropFraction_last]
    exact floor_eq_of_nat (by norm_num) (by norm_num)

/-- C8 (the skip branch): with fractions of `[0.6, 0.9)`, for an image of at
least one pixel in each direction the size guard of crop 1 and of crop 2 holds
and both crops produce a rectangle; for bounds of non-negative width and
height a crop is skipped exactly when the width or the height is zero; and
crop 1 is skipped exactly when crop 2 is. -/
theorem C8_skip_branch (bounds : Rectangle) (d1 d2 : Draws)
    (hW1 : InRange (cropFraction d1.uW)) (hH1 : InRange (cropFraction d1.uH))
    (hW2 : InRange (cropFraction d2.uW)) (hH2 : InRange (cropFraction d2.uH)) :
    (1 ≤ bounds.Dx → 1 ≤ bounds.Dy →
      (bounds.Dx > cropSize bounds.Dx d1.uW ∧ bounds.Dy > cropSize bounds.Dy d1.uH) ∧
      (bounds.Dx > cropSize bounds.Dx d2.uW ∧ bounds.Dy > cropSize bounds.Dy d2.uH) ∧
      ∃ r1 r2, crop1 bounds d1 = some (Crop.rect r1) ∧ crop2 bounds d2 = some (Crop.rect r2)) ∧
    (0 ≤ bounds.Dx → 0 ≤ bounds.Dy →
      (crop1 bounds d1 = some Crop.skipped ↔ bounds.Dx = 0 ∨ bounds.Dy = 0) ∧
      (crop2 bounds d2 = some Crop.skipped ↔ bounds.Dx = 0 ∨ bounds.Dy = 0)) ∧
    (crop1 bounds d1 = some Crop.skipped ↔ crop2 bounds d2 = some Crop.skipped) := by
  have s1 : crop1 bounds d1 = some Crop.skipped ↔ bounds.Dx ≤ 0 ∨ bounds.Dy ≤ 0 := by
    constructor
    · intro h
      by_contra hc
      rw [crop1_of_guard bounds d1 (by omega) (by omega) hW1 hH1] at h
      injection h with h
      cases h
    · exact crop1_of_not_guard bounds d1 hW1 hH1
  have s2 : crop2 bounds d2 = some Crop.skipped ↔ bounds.Dx ≤ 0 ∨ bounds.Dy ≤ 0 := by
    constructor
    · intro h
      by_contra hc
      rw [crop2_of_guard bounds d2 (by omega) (by omega) hW2 hH2] at h
      injection h with h
      cases h
    · exact crop2_of_not_guard bounds d2 hW2 hH2
  refine ⟨?_, ?_, ?_⟩
  · intro hW hH
    exact ⟨⟨cropSize_lt hW hW1, cropSize_lt hH hH1⟩, ⟨cropSize_lt hW hW2, cropSize_lt hH hH2⟩,
      _, _, crop1_of_guard bounds d1 hW hH hW1 hH1, crop2_of_guard bounds d2 hW hH hW2 hH2⟩
  · intro hW hH
    rw [s1, s2]
    constructor <;> constructor <;> intro h <;> omega
  · rw [s1, s2]

/-- Witness of C8: the 100×100 sample image with the sample draws. -/
theorem C8_skip_branch_witness :
    (InRange (cropFraction sampleDraws1.uW) ∧ InRange (cropFraction sampleDraws1.uH) ∧
      InRange (cropFraction sampleDraws2.uW) ∧ InRange (cropFraction sampleDraws2.uH)) ∧
    ∃ r1 r2, crop1 sampleBounds sampleDraws1 = some (Crop.rect r1) ∧
      crop2 sampleBounds sampleDraws2 = some (Crop.rect r2) :=
  ⟨⟨sampleDraws1_valid.1, sampleDraws1_valid.2.1, sampleDraws2_valid.1, sampleDraws2_valid.2.1⟩,
    ((C8_skip_branch sampleBounds sampleDraws1 sampleDraws2 sampleDraws1_valid.1
      sampleDraws1_valid.2.1 sampleDraws2_valid.1 sampleDraws2_valid.2.1).1
      (by decide) (by decide)).2.2⟩

/-- C9 (edge pixels), as the code computes the crop size: for valid draws and
produced crops `r1` (crop 1) and `r2` (crop 2): from a width of eleven pixels
on, `r1` ends at least two columns and `r2` at least one column before the
right edge, and the same for the rows from a height of eleven on; crop 1 never
reaches the right or the bottom edge, and crop 2 reaches it exactly when the
free space on that axis is one pixel. -/
theorem C9_edge_pixels (bounds : Rectangle) (d1 d2 : Draws) (r1 r2 : Rectangle)
    (h1 : d1.Valid) (h2 : d2.Valid)
    (e1 : crop1 bounds d1 = some (Crop.rect r1)) (e2 : crop2 bounds d2 = some (Crop.rect r2)) :
    (11 ≤ bounds.Dx → r1.Max.X ≤ bounds.Max.X - 2 ∧ r2.Max.X ≤ bounds.Max.X - 1) ∧
    (11 ≤ bounds.Dy → r1.Max.Y ≤ bounds.Max.Y - 2 ∧ r2.Max.Y ≤ bounds.Max.Y - 1) ∧
    (r1.Max.X ≤ bounds.Max.X - 1 ∧ r1.Max.Y ≤ bounds.Max.Y - 1) ∧
    (r2.Max.X = bounds.Max.X ↔ bounds.Dx - cropSize bounds.Dx d2.uW = 1) ∧
    (r2.Max.Y = bounds.Max.Y ↔ bounds.Dy - cropSize bounds.Dy d2.uH = 1) := by
  obtain ⟨hfW1, hfH1, hX1, hY1⟩ := h1
  obtain ⟨hfW2, hfH2, hX2, hY2⟩ := h2
  obtain ⟨hW, hH, rfl⟩ := crop1_inv e1 hfW1 hfH1
  obtain ⟨-, -, rfl⟩ := crop2_inv e2 hfW2 hfH2
  have dx : bounds.Dx = bounds.Max.X - bounds.Min.X := rfl
  have dy : bounds.Dy = bounds.Max.Y - bounds.Min.Y := rfl
  have gW1 := cropSize_lt hW hfW1
  have gH1 := cropSize_lt hH hfH1
  have gW2 := cropSize_lt hW hfW2
  have gH2 := cropSize_lt hH hfH2
  have cX1 := halfFree_cases (by omega : 1 ≤ bounds.Dx - cropSize bounds.Dx d1.uW)
  have cY1 := halfFree_cases (by omega : 1 ≤ bounds.Dy - cropSize bounds.Dy d1.uH)
  have cX2 := halfFree_cases (by omega : 1 ≤ bounds.Dx - cropSize bounds.Dx d2.uW)
  have cY2 := halfFree_cases (by omega : 1 ≤ bounds.Dy - cropSize bounds.Dy d2.uH)
  have sX1 := hX1 _ (halfFree_pos bounds.Dx (cropSize bounds.Dx d1.uW))
  have sY1 := hY1 _ (halfFree_pos bounds.Dy (cropSize bounds.Dy d1.uH))
  have sX2 := hX2 _ (halfFree_pos bounds.Dx (cropSize bounds.Dx d2.uW))
  have sY2 := hY2 _ (halfFree_pos bounds.Dy (cropSize bounds.Dy d2.uH))
  dsimp only
  refine ⟨?_, ?_, ?_, ?_, ?_⟩
  · intro h11
    have f1 := two_le_free h11 hfW1
    have f2 := two_le_free h11 hfW2
    constructor <;> omega
  · intro h11
    have f1 := two_le_free h11 hfH1
    have f2 := two_le_free h11 hfH2
    constructor <;> omega
  · constructor <;> omega
  · constructor <;> intro h <;> omega
  · constructor <;> intro h <;> omega

theorem crop1_sample :
    crop1 sampleBounds sampleDraws1 = some (Crop.rect ⟨⟨3, 15⟩, ⟨63, 90⟩⟩) := by
  rw [crop1_of_guard sampleBounds sampleDraws1 (by decide) (by decide)
    sampleDraws1_valid.1 sampleDraws1_valid.2.1]
  have hx : sampleBounds.Dx = 100 := by decide
  have hy : sampleBounds.Dy = 100 := by decide
  simp only [hx, hy, sampleDraws1, cropSize_100_a, cropSize_100_b]
  decide

theorem crop2_sample :
    crop2 sampleBounds sampleDraws2 = some (Crop.rect ⟨⟨20, 24⟩, ⟨102, 84⟩⟩) := by
  rw [crop2_of_guard sampleBounds sampleDraws2 (by decide) (by decide)
    sampleDraws2_valid.1 sampleDraws2_valid.2.1]
  have hx : sampleBounds.Dx = 100 := by decide
  have hy : sampleBounds.Dy = 100 := by decide
  simp only [hx, hy, sampleDraws2, cropSize_100_a, cropSize_100_c]
  decide

/-- Witness of C9 as amended: the 100×100 sample image, whose crops end at
columns 63 and 102 of the 103 and at rows 90 and 84 of the 104. -/
theorem C9_edge_pixels_witness :
    (sampleDraws1.Valid ∧ sampleDraws2.Valid ∧
      crop1 sampleBounds sampleDraws1 = some (Crop.rect ⟨⟨3, 15⟩, ⟨63, 90⟩⟩) ∧
      crop2 sampleBounds sampleDraws2 = some (Crop.rect ⟨⟨20, 24⟩, ⟨102, 84⟩⟩)) ∧
    ((63 : Int) ≤ sampleBounds.Max.X - 2 ∧ (102 : Int) ≤ sampleBounds.Max.X - 1) :=
  ⟨⟨sampleDraws1_valid, sampleDraws2_valid, crop1_sample, crop2_sample⟩,
    (C9_edge_pixels sampleBounds sampleDraws1 sampleDraws2 _ _ sampleDraws1_valid
      sampleDraws2_valid crop1_sample crop2_sample).1 (by decide)⟩

/-- Counterexample to C9 as stated: on the 10×10 image at origin `(0, 0)` with
the largest draw for the width, the crop width is 9 and the free space 1, so
crop 1 ends at column 9, past `W - 2 = 8`, and crop 2 ends at column 10, the
right edge, past `W - 1 = 9`. -/
theorem C9_counterexample :
    (sampleDraws3.Valid ∧ (10 : Int) ≤ tenPixels.Dx ∧ tenPixels.Min = ⟨0, 0⟩) ∧
    crop1 tenPixels sampleDraws3 = some (Crop.rect ⟨⟨0, 0⟩, ⟨9, 6⟩⟩) ∧
    crop2 tenPixels sampleDraws3 = some (Crop.rect ⟨⟨1, 2⟩, ⟨10, 8⟩⟩) ∧
    ¬ ((9 : Int) ≤ tenPixels.Max.X - 2) ∧ ¬ ((10 : Int) ≤ tenPixels.Max.X - 1) := by
  have hx : tenPixels.Dx = 10 := by decide
  have hy : tenPixels.Dy = 10 := by decide
  refine ⟨⟨sampleDraws3_valid, by decide, rfl⟩, ?_, ?_, by decide, by decide⟩
  · rw [crop1_of_guard tenPixels sampleDraws3 (by decide) (by decide)
      sampleDraws3_valid.1 sampleDraws3_valid.2.1]
    simp only [hx, hy, sampleDraws3, cropSize_10_last, cropSize_10_b]
    decide
  · rw [crop2_of_guard tenPixels sampleDraws3 (by decide) (by decide)
      sampleDraws3_valid.1 sampleDraws3_valid.2.1]
    simp only [hx, hy, sampleDraws3, cropSize_10_last, cropSize_10_b]
    decide

/-- Away from one-pixel dimensions the crops are non-degenerate: for an image
of at least two pixels in each direction and fractions of `[0.6, 0.9)`, every
rectangle that crop 1 or crop 2 produces has `x0 < x1` and `y0 < y1`. -/
theorem nondegenerate_of_two_le (bounds : Rectangle) (d : Draws) (r : Rectangle)
    (hW : 2 ≤ bounds.Dx) (hH : 2 ≤ bounds.Dy)
    (hfW : InRange (cropFraction d.uW)) (hfH : InRange (cropFraction d.uH))
    (hr : crop1 bounds d = some (Crop.rect r) ∨ crop2 bounds d = some (Crop.rect r)) :
    r.Min.X < r.Max.X ∧ r.Min.Y < r.Max.Y := by
  have pW := cropSize_pos hW hfW
  have pH := cropSize_pos hH hfH
  rcases hr with hr | hr
  · obtain ⟨-, -, rfl⟩ := crop1_inv hr hfW hfH
    constructor <;> dsimp only <;> omega
  · obtain ⟨-, -, rfl⟩ := crop2_inv hr hfW hfH
    constructor <;> dsimp only <;> omega

/-- On a one-pixel image every valid pair of draws gives the same two calls of
`saveCroppedImage`: the empty rectangle at the top-left corner for crop 1 and
the empty rectangle at the bottom-right corner for crop 2. -/
theorem processImage_one_pixel (bounds : Rectangle) (d1 d2 : Draws)
    (hW : bounds.Dx = 1) (hH : bounds.Dy = 1) (h1 : d1.Valid) (h2 : d2.Valid) :
    crop1 bounds d1 = some (Crop.rect ⟨bounds.Min, bounds.Min⟩) ∧
    crop2 bounds d2 = some (Crop.rect ⟨bounds.Max, bounds.Max⟩) ∧
    processImage bounds d1 d2 =
      some [(⟨bounds.Min, bounds.Min⟩, 1), (⟨bounds.Max, bounds.Max⟩, 2)] := by
  obtain ⟨hfW1, hfH1, hX1, hY1⟩ := h1
  obtain ⟨hfW2, hfH2, hX2, hY2⟩ := h2
  have hh : halfFree 1 0 = 1 := by decide
  have a1 := hX1 1 (by decide)
  have b1 := hY1 1 (by decide)
  have a2 := hX2 1 (by decide)
  have b2 := hY2 1 (by decide)
  have e1 : crop1 bounds d1 = some (Crop.rect ⟨bounds.Min, bounds.Min⟩) := by
    rw [crop1_of_guard bounds d1 (by omega) (by omega) hfW1 hfH1]
    simp only [hW, hH, cropSize_one hfW1, cropSize_one hfH1, hh]
    have : d1.iX 1 = 0 := by omega
    have : d1.iY 1 = 0 := by omega
    simp [*]
  have e2 : crop2 bounds d2 = some (Crop.rect ⟨bounds.Max, bounds.Max⟩) := by
    rw [crop2_of_guard bounds d2 (by omega) (by omega) hfW2 hfH2]
    simp only [hW, hH, cropSize_one hfW2, cropSize_one hfH2, hh]
    have : d2.iX 1 = 0 := by omega
    have : d2.iY 1 = 0 := by omega
    have dx : bounds.Max.X = 1 + bounds.Min.X := by
      simp only [Rectangle.Dx] at hW; omega
    have dy : bounds.Max.Y = 1 + bounds.Min.Y := by
      simp only [Rectangle.Dy] at hH; omega
    have hm : bounds.Max = ⟨1 + bounds.Min.X, 1 + bounds.Min.Y⟩ := by
      rw [← dx, ← dy]
    simp only [*, zero_add, add_zero]
  refine ⟨e1, e2, ?_⟩
  simp [processImage, e1, e2, saveCalls]

/-- C2 (non-degeneracy), at the failing input: for the one-pixel image and the
sample draws the size guard passes with a crop size of `0 × 0`, and the
rectangles of both crops are empty, `x0 = x1` and `y0 = y1`. -/
theorem C2_one_pixel_crops_are_empty :
    (onePixel.Dx > cropSize onePixel.Dx sampleDraws1.uW ∧
      onePixel.Dy > cropSize onePixel.Dy sampleDraws1.uH) ∧
    cropSize onePixel.Dx sampleDraws1.uW = 0 ∧ cropSize onePixel.Dy sampleDraws1.uH = 0 ∧
    processImage onePixel sampleDraws1 sampleDraws2 =
      some [(⟨⟨0, 0⟩, ⟨0, 0⟩⟩, 1), (⟨⟨1, 1⟩, ⟨1, 1⟩⟩, 2)] := by
  have hx : onePixel.Dx = 1 := by decide
  have hy : onePixel.Dy = 1 := by decide
  have cw := cropSize_one sampleDraws1_valid.1
  have ch := cropSize_one sampleDraws1_valid.2.1
  refine ⟨?_, ?_, ?_, ?_⟩
  · rw [hx, hy, cw, ch]; decide
  · rw [hx, cw]
  · rw [hy, ch]
  · exact (processImage_one_pixel onePixel sampleDraws1 sampleDraws2 hx hy
      sampleDraws1_valid sampleDraws2_valid).2.2

/-- C4 (skip policy), on the code: for a one-pixel image and all valid draws
the crop size is `0 × 0`, the size guard of both crops passes, neither crop is
skipped, and `saveCroppedImage` is called for crop 1 and for crop 2, each time
with an empty rectangle. -/
theorem C4_one_pixel_not_skipped (bounds : Rectangle) (d1 d2 : Draws)
    (hW : bounds.Dx = 1) (hH : bounds.Dy = 1) (h1 : d1.Valid) (h2 : d2.Valid) :
    (bounds.Dx > cropSize bounds.Dx d1.uW ∧ bounds.Dy > cropSize bounds.Dy d1.uH) ∧
    (bounds.Dx > cropSize bounds.Dx d2.uW ∧ bounds.Dy > cropSize bounds.Dy d2.uH) ∧
    crop1 bounds d1 ≠ some Crop.skipped ∧ crop2 bounds d2 ≠ some Crop.skipped ∧
    processImage bounds d1 d2 =
      some [(⟨bounds.Min, bounds.Min⟩, 1), (⟨bounds.Max, bounds.Max⟩, 2)] := by
  obtain ⟨e1, e2, hp⟩ := processImage_one_pixel bounds d1 d2 hW hH h1 h2
  refine ⟨⟨cropSize_lt (by omega) h1.1, cropSize_lt (by omega) h1.2.1⟩,
    ⟨cropSize_lt (by omega) h2.1, cropSize_lt (by omega) h2.2.1⟩, ?_, ?_, hp⟩
  · rw [e1]; simp
  · rw [e2]; simp

/-- Witness of C4: the one-pixel image at the origin with the sample draws. -/
theorem C4_one_pixel_not_skipped_witness :
    (onePixel.Dx = 1 ∧ onePixel.Dy = 1 ∧ sampleDraws2.Valid ∧ sampleDraws1.Valid) ∧
    crop1 onePixel sampleDraws2 ≠ some Crop.skipped ∧
    crop2 onePixel sampleDraws1 ≠ some Crop.skipped :=
  have h := C4_one_pixel_not_skipped onePixel sampleDraws2 sampleDraws1 (by decide) (by decide)
    sampleDraws2_valid sampleDraws1_valid
  ⟨⟨by decide, by decide, sampleDraws2_valid, sampleDraws1_valid⟩, h.2.2.1, h.2.2.2.1⟩

/-! ## Mean start coordinates -/

theorem sum_range_cast (n : ℕ) :
    (∑ r in Finset.range n, (r : ℚ)) = (n : ℚ) * ((n : ℚ) - 1) / 2 := by
  induction n with
  | zero => simp
  | succ k ih =>
    rw [Finset.sum_range_succ, ih]
    push_cast
    ring

theorem uniformMean_add (n c : Int) (hn : 0 < n) :
    uniformMean n (fun r => ((c + r : Int) : ℚ)) = (c : ℚ) + ((n : ℚ) - 1) / 2 := by
  obtain ⟨m, rfl⟩ := Int.eq_ofNat_of_zero_le hn.le
  have hm : (m : ℚ) ≠ 0 := by
    have : 0 < m := by exact_mod_cast hn
    exact_mod_cast this.ne'
  unfold uniformMean
  simp only [Int.toNat_ofNat, Int.cast_add, Finset.sum_add_distrib, Finset.sum_const,
    Finset.card_range, nsmul_eq_mul, Int.cast_natCast]
  rw [sum_range_cast]
  field_simp
  ring

theorem meanStart1_eq (orig crop : Int) :
    meanStart1 orig crop = ((halfFree orig crop : ℚ) - 1) / 2 := by
  have h := uniformMean_add (halfFree orig crop) 0 (halfFree_pos orig crop)
  unfold meanStart1
  simp only [start1_eq, Option.getD_some]
  simpa using h

theorem meanStart2_eq (orig crop : Int) :
    meanStart2 orig crop = (halfFree orig crop : ℚ) + ((halfFree orig crop : ℚ) - 1) / 2 := by
  have h := uniformMean_add (halfFree orig crop) (halfFree orig crop) (halfFree_pos orig crop)
  unfold meanStart2
  simp only [start2_eq, Option.getD_some]
  exact h

theorem halfFree_eq_max {orig crop : Int} (h : 1 ≤ orig - crop) :
    halfFree orig crop = max 1 ((orig - crop) / 2) := by
  rcases halfFree_cases h with ⟨a, b⟩ | ⟨a, b⟩ <;> rw [b] <;> omega

/-- The top-left bias along one axis, for a free space of at least one pixel. -/
theorem topLeft_axis {orig crop : Int} (h : 1 ≤ orig - crop) :
    halfFree orig crop = max 1 ((orig - crop) / 2) ∧
    (∀ s : Int, 0 ≤ s → s < halfFree orig crop → 2 * s < orig - crop) ∧
    meanStart1 orig crop = ((halfFree orig crop : ℚ) - 1) / 2 ∧
    meanStart1 orig crop < ((orig - crop : Int) : ℚ) / 2 := by
  have hc := halfFree_cases h
  refine ⟨halfFree_eq_max h, ?_, meanStart1_eq orig crop, ?_⟩
  · intro s h0 hs
    omega
  · rw [meanStart1_eq]
    have : halfFree orig crop - 1 < orig - crop := by omega
    have : ((halfFree orig crop - 1 : Int) : ℚ) < ((orig - crop : Int) : ℚ) := by
      exact_mod_cast this
    push_cast at this ⊢
    linarith

/-- The bottom-right bias along one axis, for a free space of at least one pixel. -/
theorem bottomRight_axis {orig crop : Int} (h : 1 ≤ orig - crop) :
    halfFree orig crop = max 1 ((orig - crop) / 2) ∧
    meanStart2 orig crop = (halfFree orig crop : ℚ) + ((halfFree orig crop : ℚ) - 1) / 2 ∧
    (((orig - crop : Int) : ℚ) / 2 < meanStart2 orig crop ↔
      orig - crop ≠ 2 ∧ orig - crop ≠ 3 ∧ orig - crop ≠ 5) := by
  have hc := halfFree_cases h
  refine ⟨halfFree_eq_max h, meanStart2_eq orig crop, ?_⟩
  rw [meanStart2_eq]
  have key : ((orig - crop : Int) : ℚ) / 2 <
      (halfFree orig crop : ℚ) + ((halfFree orig crop : ℚ) - 1) / 2 ↔
      orig - crop < 3 * halfFree orig crop - 1 := by
    have e : (halfFree orig crop : ℚ) + ((halfFree orig crop : ℚ) - 1) / 2 =
        ((3 * halfFree orig crop - 1 : Int) : ℚ) / 2 := by
      push_cast; ring
    rw [e]
    constructor
    · intro hlt
      have : ((orig - crop : Int) : ℚ) < ((3 * halfFree orig crop - 1 : Int) : ℚ) := by
        linarith
      exact_mod_cast this
    · intro hlt
      have : ((orig - crop : Int) : ℚ) < ((3 * halfFree orig crop - 1 : Int) : ℚ) := by
        exact_mod_cast hlt
      linarith
  rw [key]
  constructor
  · intro hlt
    omega
  · intro hne
    omega

/-- C5 (top-left bias): for every produced crop 1, on the X axis the free
space is at least one pixel, the draw range is `max(1, freeX / 2)`, the start
coordinate of the rectangle and every coordinate of the draw range are below
half of the free space (`2 * start < freeX`), and the mean of the start
coordinate under a uniform draw is `(maxX - 1) / 2`, strictly less than
`freeX / 2`; the same holds on the Y axis. -/
theorem C5_top_left_bias (bounds : Rectangle) (d : Draws) (r : Rectangle)
    (hv : d.Valid) (e : crop1 bounds d = some (Crop.rect r)) :
    (1 ≤ bounds.Dx - cropSize bounds.Dx d.uW ∧
      halfFree bounds.Dx (cropSize bounds.Dx d.uW)
        = max 1 ((bounds.Dx - cropSize bounds.Dx d.uW) / 2) ∧
      2 * (r.Min.X - bounds.Min.X) < bounds.Dx - cropSize bounds.Dx d.uW ∧
      (∀ s : Int, 0 ≤ s → s < halfFree bounds.Dx (cropSize bounds.Dx d.uW) →
        2 * s < bounds.Dx - cropSize bounds.Dx d.uW) ∧
      meanStart1 bounds.Dx (cropSize bounds.Dx d.uW)
        = ((halfFree bounds.Dx (cropSize bounds.Dx d.uW) : ℚ) - 1) / 2 ∧
      meanStart1 bounds.Dx (cropSize bounds.Dx d.uW)
        < ((bounds.Dx - cropSize bounds.Dx d.uW : Int) : ℚ) / 2) ∧
    (1 ≤ bounds.Dy - cropSize bounds.Dy d.uH ∧
      halfFree bounds.Dy (cropSize bounds.Dy d.uH)
        = max 1 ((bounds.Dy - cropSize bounds.Dy d.uH) / 2) ∧
      2 * (r.Min.Y - bounds.Min.Y) < bounds.Dy - cropSize bounds.Dy d.uH ∧
      (∀ s : Int, 0 ≤ s → s < halfFree bounds.Dy (cropSize bounds.Dy d.uH) →
        2 * s < bounds.Dy - cropSize bounds.Dy d.uH) ∧
      meanStart1 bounds.Dy (cropSize bounds.Dy d.uH)
        = ((halfFree bounds.Dy (cropSize bounds.Dy d.uH) : ℚ) - 1) / 2 ∧
      meanStart1 bounds.Dy (cropSize bounds.Dy d.uH)
        < ((bounds.Dy - cropSize bounds.Dy d.uH : Int) : ℚ) / 2) := by
  obtain ⟨hfW, hfH, hX, hY⟩ := hv
  obtain ⟨hW, hH, rfl⟩ := crop1_inv e hfW hfH
  have gW := cropSize_lt hW hfW
  have gH := cropSize_lt hH hfH
  have fW : 1 ≤ bounds.Dx - cropSize bounds.Dx d.uW := by omega
  have fH : 1 ≤ bounds.Dy - cropSize bounds.Dy d.uH := by omega
  obtain ⟨a1, a2, a3, a4⟩ := topLeft_axis fW
  obtain ⟨b1, b2, b3, b4⟩ := topLeft_axis fH
  have sX := hX _ (halfFree_pos bounds.Dx (cropSize bounds.Dx d.uW))
  have sY := hY _ (halfFree_pos bounds.Dy (cropSize bounds.Dy d.uH))
  refine ⟨⟨fW, a1, ?_, a2, a3, a4⟩, ⟨fH, b1, ?_, b2, b3, b4⟩⟩
  · have := a2 _ sX.1 sX.2
    dsimp only
    omega
  · have := b2 _ sY.1 sY.2
    dsimp only
    omega

/-- Witness of C5: crop 1 of the 100×100 sample image, with free space 40 and
25 and start coordinates 0 and 11. -/
theorem C5_top_left_bias_witness :
    (sampleDraws1.Valid ∧
      crop1 sampleBounds sampleDraws1 = some (Crop.rect ⟨⟨3, 15⟩, ⟨63, 90⟩⟩)) ∧
    meanStart1 sampleBounds.Dx (cropSize sampleBounds.Dx sampleDraws1.uW)
      < ((sampleBounds.Dx - cropSize sampleBounds.Dx sampleDraws1.uW : Int) : ℚ) / 2 :=
  ⟨⟨sampleDraws1_valid, crop1_sample⟩,
    (C5_top_left_bias sampleBounds sampleDraws1 _ sampleDraws1_valid crop1_sample).1.2.2.2.2.2⟩

/-- C6 (bottom-right bias), as the code has it: for every produced crop 2, on
the X axis the free space is at least one pixel, `halfFreeX` is
`max(1, freeX / 2)`, the mean of the start coordinate under a uniform draw is
`halfFreeX + (halfFreeX - 1) / 2`, and this mean is strictly greater than
`freeX / 2` exactly when the free space is none of 2, 3 and 5; the same holds
on the Y axis. -/
theorem C6_bottom_right_bias (bounds : Rectangle) (d : Draws) (r : Rectangle)
    (hfW : InRange (cropFraction d.uW)) (hfH : InRange (cropFraction d.uH))
    (e : crop2 bounds d = some (Crop.rect r)) :
    (1 ≤ bounds.Dx - cropSize bounds.Dx d.uW ∧
      halfFree bounds.Dx (cropSize bounds.Dx d.uW)
        = max 1 ((bounds.Dx - cropSize bounds.Dx d.uW) / 2) ∧
      meanStart2 bounds.Dx (cropSize bounds.Dx d.uW)
        = (halfFree bounds.Dx (cropSize bounds.Dx d.uW) : ℚ)
          + ((halfFree bounds.Dx (cropSize bounds.Dx d.uW) : ℚ) - 1) / 2 ∧
      (((bounds.Dx - cropSize bounds.Dx d.uW : Int) : ℚ) / 2
          < meanStart2 bounds.Dx (cropSize bounds.Dx d.uW) ↔
        bounds.Dx - cropSize bounds.Dx d.uW ≠ 2 ∧ bounds.Dx - cropSize bounds.Dx d.uW ≠ 3 ∧
          bounds.Dx - cropSize bounds.Dx d.uW ≠ 5)) ∧
    (1 ≤ bounds.Dy - cropSize bounds.Dy d.uH ∧
      halfFree bounds.Dy (cropSize bounds.Dy d.uH)
        = max 1 ((bounds.Dy - cropSize bounds.Dy d.uH) / 2) ∧
      meanStart2 bounds.Dy (cropSize bounds.Dy d.uH)
        = (halfFree bounds.Dy (cropSize bounds.Dy d.uH) : ℚ)
          + ((halfFree bounds.Dy (cropSize bounds.Dy d.uH) : ℚ) - 1) / 2 ∧
      (((bounds.Dy - cropSize bounds.Dy d.uH : Int) : ℚ) / 2
          < meanStart2 bounds.Dy (cropSize bounds.Dy d.uH) ↔
        bounds.Dy - cropSize bounds.Dy d.uH ≠ 2 ∧ bounds.Dy - cropSize bounds.Dy d.uH ≠ 3 ∧
          bounds.Dy - cropSize bounds.Dy d.uH ≠ 5)) := by
  obtain ⟨hW, hH, -⟩ := crop2_inv e hfW hfH
  have gW := cropSize_lt hW hfW
  have gH := cropSize_lt hH hfH
  have fW : 1 ≤ bounds.Dx - cropSize bounds.Dx d.uW := by omega
  have fH : 1 ≤ bounds.Dy - cropSize bounds.Dy d.uH := by omega
  exact ⟨⟨fW, bottomRight_axis fW⟩, ⟨fH, bottomRight_axis fH⟩⟩

/-- Witness of C6 as amended: crop 2 of the 100×100 sample image, with a free
space of 18 pixels on the X axis. -/
theorem C6_bottom_right_bias_witness :
    (InRange (cropFraction sampleDraws2.uW) ∧ InRange (cropFraction sampleDraws2.uH) ∧
      crop2 sampleBounds sampleDraws2 = some (Crop.rect ⟨⟨20, 24⟩, ⟨102, 84⟩⟩)) ∧
    meanStart2 sampleBounds.Dx (cropSize sampleBounds.Dx sampleDraws2.uW)
      = (halfFree sampleBounds.Dx (cropSize sampleBounds.Dx sampleDraws2.uW) : ℚ)
        + ((halfFree sampleBounds.Dx (cropSize sampleBounds.Dx sampleDraws2.uW) : ℚ) - 1) / 2 :=
  ⟨⟨sampleDraws2_valid.1, sampleDraws2_valid.2.1, crop2_sample⟩,
    (C6_bottom_right_bias sampleBounds sampleDraws2 _ sampleDraws2_valid.1
      sampleDraws2_valid.2.1 crop2_sample).1.2.2.1⟩

/-- Counterexample to C6 as stated: on a 10×10 image with the draw `3/4`
(width fraction `0.825`) crop 2 is produced with a crop width of 8 and a free
space of 2, the only start coordinate is 1, and its mean 1 is not greater than
`freeX / 2 = 1`. -/
theorem C6_counterexample :
    sampleDraws2.Valid ∧
    crop2 tenPixels sampleDraws2 = some (Crop.rect ⟨⟨1, 2⟩, ⟨9, 8⟩⟩) ∧
    tenPixels.Dx - cropSize tenPixels.Dx sampleDraws2.uW = 2 ∧
    halfFree tenPixels.Dx (cropSize tenPixels.Dx sampleDraws2.uW) = 1 ∧
    meanStart2 tenPixels.Dx (cropSize tenPixels.Dx sampleDraws2.uW) = 1 ∧
    ¬ (((tenPixels.Dx - cropSize tenPixels.Dx sampleDraws2.uW : Int) : ℚ) / 2
        < meanStart2 tenPixels.Dx (cropSize tenPixels.Dx sampleDraws2.uW)) := by
  have hx : tenPixels.Dx = 10 := by decide
  have hy : tenPixels.Dy = 10 := by decide
  have hu : sampleDraws2.uW = 3 / 4 := rfl
  have hh : halfFree 10 8 = 1 := by decide
  have hm : meanStart2 10 8 = 1 := by
    rw [meanStart2_eq, hh]; norm_num
  refine ⟨sampleDraws2_valid, ?_, ?_, ?_, ?_, ?_⟩
  · rw [crop2_of_guard tenPixels sampleDraws2 (by decide) (by decide)
      sampleDraws2_valid.1 sampleDraws2_valid.2.1]
    simp only [hx, hy, sampleDraws2, cropSize_10_a, cropSize_10_b]
    decide
  · rw [hx, hu, cropSize_10_a]; decide
  · rw [hx, hu, cropSize_10_a]; exact hh
  · rw [hx, hu, cropSize_10_a]; exact hm
  · rw [hx, hu, cropSize_10_a, hm]; norm_num

/-! ## File naming -/

theorem isPathSeparator_iff (c : Char) : IsPathSeparator c = true ↔ c = '/' := by
  simp [IsPathSeparator]

theorem not_sep_of_not_mem {l : List Char} (h : '/' ∉ l) :
    ∀ c ∈ l, (!IsPathSeparator c) = true := by
  intro c hc
  have : c ≠ '/' := fun e => h (e ▸ hc)
  simp [IsPathSeparator, this]

/-- The last element of a path: a non-empty name without separator is its own
base, also behind a directory part. -/
theorem base_core {b : List Char} (hne : b ≠ []) (hs : '/' ∉ b) (tail : List Char)
    (ht : tail = [] ∨ ∃ t, tail = '/' :: t) :
    ((b.reverse ++ tail).dropWhile IsPathSeparator).takeWhile (fun c => !IsPathSeparator c)
      = b.reverse := by
  have hall : ∀ c ∈ b.reverse, (!IsPathSeparator c) = true := fun c hc =>
    not_sep_of_not_mem hs c (List.mem_reverse.mp hc)
  have hne' : b.reverse ≠ [] := fun e => hne (List.reverse_eq_nil_iff.mp e)
  generalize b.reverse = rb at hall hne'
  cases rb with
  | nil => exact absurd rfl hne'
  | cons last rinit =>
    have hl : ¬ IsPathSeparator last = true := by
      have := hall last (by simp)
      simpa using this
    rw [List.cons_append, List.dropWhile_cons_of_neg hl, ← List.cons_append,
      List.takeWhile_append_of_pos hall]
    rcases ht with rfl | ⟨t, rfl⟩
    · simp
    · rw [List.takeWhile_cons_of_neg (by simp [IsPathSeparator])]
      simp

theorem Base_name {b : List Char} (hne : b ≠ []) (hs : '/' ∉ b) : Base b = b := by
  have h := base_core hne hs [] (Or.inl rfl)
  rw [List.append_nil] at h
  unfold Base
  simp only [hne, if_false, h, List.reverse_reverse]

theorem Base_dir {b : List Char} (hne : b ≠ []) (hs : '/' ∉ b) (dir : List Char) :
    Base (dir ++ '/' :: b) = b := by
  have h := base_core hne hs ('/' :: dir.reverse) (Or.inr ⟨_, rfl⟩)
  have hr : (dir ++ '/' :: b).reverse = b.reverse ++ '/' :: dir.reverse := by simp
  unfold Base
  simp only [hr, h, List.reverse_reverse, hne, if_false]
  rw [if_neg]
  simp

/-- The base of a path is the single separator or holds no separator. -/
theorem Base_sep (path : List Char) : Base path = ['/'] ∨ '/' ∉ Base path := by
  unfold Base
  split
  · right; decide
  · simp only
    split
    · left; rfl
    · right
      intro hm
      have := List.mem_takeWhile_imp (List.mem_reverse.mp hm)
      simp [IsPathSeparator] at this

theorem extLoop_cons (c : Char) (rev tail : List Char) :
    extLoop (c :: rev) tail =
      if IsPathSeparator c then [] else if c = '.' then c :: tail else extLoop rev (c :: tail) :=
  rfl

theorem extLoop_no_dot (rev tail : List Char) (h : '.' ∉ rev) : extLoop rev tail = [] := by
  induction rev generalizing tail with
  | nil => rfl
  | cons c rev ih =>
    have hc : c ≠ '.' := fun e => h (by simp [e])
    have hr : '.' ∉ rev := fun e => h (List.mem_cons_of_mem _ e)
    rw [extLoop_cons, if_neg hc, ih _ hr]
    simp

theorem extLoop_suffix (rev tail : List Char) :
    ∃ pre, rev.reverse ++ tail = pre ++ extLoop rev tail := by
  induction rev generalizing tail with
  | nil => exact ⟨tail, by simp [extLoop]⟩
  | cons c rev ih =>
    rw [extLoop_cons]
    split
    · exact ⟨(c :: rev).reverse ++ tail, by simp⟩
    · split
      · exact ⟨rev.reverse, by simp⟩
      · obtain ⟨pre, hp⟩ := ih (c :: tail)
        exact ⟨pre, by rw [← hp]; simp⟩

theorem extLoop_dot (rev tail : List Char) (hd : '.' ∈ rev) (hs : '/' ∉ rev)
    (ht : '.' ∉ tail) : ∃ rest, extLoop rev tail = '.' :: rest ∧ '.' ∉ rest := by
  induction rev generalizing tail with
  | nil => simp at hd
  | cons c rev ih =>
    have hc : ¬ IsPathSeparator c = true := by
      rw [isPathSeparator_iff]
      intro e
      exact hs (by simp [e])
    have hr : '/' ∉ rev := fun e => hs (List.mem_cons_of_mem _ e)
    rw [extLoop_cons, if_neg hc]
    split
    · next hdot => exact ⟨tail, by rw [hdot], ht⟩
    · next hdot =>
      have hd' : '.' ∈ rev := by
        rcases List.mem_cons.mp hd with e | e
        · exact absurd e.symm hdot
        · exact e
      refine ih _ hd' hr ?_
      intro hm
      rcases List.mem_cons.mp hm with e | e
      · exact hdot e.symm
      · exact ht e

theorem extLoop_skip (l rest tail : List Char) (h : ∀ c ∈ l, c ≠ '/' ∧ c ≠ '.') :
    extLoop (l ++ rest) tail = extLoop rest (l.reverse ++ tail) := by
  induction l generalizing tail with
  | nil => rfl
  | cons c l ih =>
    have hc := h c (by simp)
    have hsep : ¬ IsPathSeparator c = true := by
      rw [isPathSeparator_iff]; exact hc.1
    rw [List.cons_append, extLoop_cons, if_neg hsep, if_neg hc.2,
      ih _ (fun x hx => h x (List.mem_cons_of_mem _ hx))]
    simp

/-- The extension of a string that ends in a dot followed by dot-free,
separator-free bytes is that ending. -/
theorem Ext_of_dot (pre rest : List Char) (hd : '.' ∉ rest) (hs : '/' ∉ rest) :
    Ext (pre ++ '.' :: rest) = '.' :: rest := by
  have hr : (pre ++ '.' :: rest).reverse = rest.reverse ++ '.' :: pre.reverse := by simp
  have hall : ∀ c ∈ rest.reverse, c ≠ '/' ∧ c ≠ '.' := by
    intro c hc
    have hc' := List.mem_reverse.mp hc
    exact ⟨fun e => hs (e ▸ hc'), fun e => hd (e ▸ hc')⟩
  unfold Ext
  rw [hr, extLoop_skip _ _ _ hall, extLoop_cons]
  simp [IsPathSeparator]

theorem Ext_no_dot {s : List Char} (h : '.' ∉ s) : Ext s = [] :=
  extLoop_no_dot _ _ (fun e => h (List.mem_reverse.mp e))

theorem Ext_suffix (s : List Char) : ∃ name, s = name ++ Ext s := by
  obtain ⟨pre, hp⟩ := extLoop_suffix s.reverse []
  exact ⟨pre, by simpa [Ext] using hp⟩

theorem Ext_dot {s : List Char} (hd : '.' ∈ s) (hs : '/' ∉ s) :
    ∃ rest, Ext s = '.' :: rest ∧ '.' ∉ rest :=
  extLoop_dot s.reverse [] (List.mem_reverse.mpr hd)
    (fun e => hs (List.mem_reverse.mp e)) (by simp)

theorem TrimSuffix_append (name ext : List Char) : TrimSuffix (name ++ ext) ext = name := by
  have hl : (name ++ ext).length - ext.length = name.length := by simp
  unfold TrimSuffix HasSuffix
  rw [hl, List.drop_left, List.take_left]
  simp

/-- The name and the extension of a base: `TrimSuffix base (Ext base)` followed
by `Ext base` is the base. -/
theorem name_append_ext (base : List Char) : TrimSuffix base (Ext base) ++ Ext base = base := by
  obtain ⟨name, hn⟩ := Ext_suffix base
  have : TrimSuffix base (Ext base) = name := by
    have h := TrimSuffix_append name (Ext base)
    rwa [← hn] at h
  rw [this]
  exact hn.symm

theorem formatInt_one : formatInt 1 = ['1'] := by decide

theorem formatInt_two : formatInt 2 = ['2'] := by decide

/-- C7 (output file naming): `saveCroppedImage` writes to
`Join(destDir, name ++ "_crop_" ++ decimal(N) ++ ext)` where `base` is the base
of the source path, `ext` the extension of `base` and `name` is `base` without
`ext`: `name ++ ext = base`, `ext` is empty when `base` has no dot and
otherwise starts at the final dot of `base`, unchanged; the crop numbers 1 and
2 are written `1` and `2`; the path depends on the source path only through
its base, so files of the same name in two source directories get the same
output path. -/
theorem C7_output_file_naming (Join : List Char → List Char → List Char)
    (sourcePath destDir : List Char) (N : Int) :
    destPath Join sourcePath destDir N =
      Join destDir (TrimSuffix (Base sourcePath) (Ext (Base sourcePath))
        ++ ['_', 'c', 'r', 'o', 'p', '_'] ++ formatInt N ++ Ext (Base sourcePath)) ∧
    TrimSuffix (Base sourcePath) (Ext (Base sourcePath)) ++ Ext (Base sourcePath)
      = Base sourcePath ∧
    ('.' ∉ Base sourcePath → Ext (Base sourcePath) = []) ∧
    ('.' ∈ Base sourcePath → ∃ rest, Ext (Base sourcePath) = '.' :: rest ∧ '.' ∉ rest) ∧
    (formatInt 1 = ['1'] ∧ formatInt 2 = ['2']) ∧
    (∀ sourcePath2 : List Char, Base sourcePath2 = Base sourcePath →
      destPath Join sourcePath2 destDir N = destPath Join sourcePath destDir N) ∧
    (∀ dir1 dir2 b : List Char, b ≠ [] → '/' ∉ b →
      Base (dir1 ++ '/' :: b) = b ∧
      destPath Join (dir1 ++ '/' :: b) destDir N = destPath Join (dir2 ++ '/' :: b) destDir N) := by
  refine ⟨rfl, name_append_ext _, Ext_no_dot, ?_, ⟨formatInt_one, formatInt_two⟩, ?_, ?_⟩
  · intro hd
    rcases Base_sep sourcePath with h | h
    · rw [h] at hd
      exact absurd hd (by decide)
    · exact Ext_dot hd h
  · intro sp2 h
    simp only [destPath, newFileName, h]
  · intro dir1 dir2 b hne hs
    refine ⟨Base_dir hne hs dir1, ?_⟩
    simp only [destPath, newFileName, Base_dir hne hs]

theorem newFileName_of_name {b : List Char} (hne : b ≠ []) (hs : '/' ∉ b) (n : Int) :
    newFileName b n =
      TrimSuffix b (Ext b) ++ ['_', 'c', 'r', 'o', 'p', '_'] ++ formatInt n ++ Ext b := by
  simp only [newFileName, Base_name hne hs]

/-- The extension of the built file name is the extension of the base name. -/
theorem Ext_newFileName {b : List Char} (hne : b ≠ []) (hs : '/' ∉ b) {n : Int}
    (hn : n = 1 ∨ n = 2) : Ext (newFileName b n) = Ext b := by
  have hb := name_append_ext b
  have hf : '.' ∉ formatInt n := by
    rcases hn with rfl | rfl <;> decide
  rw [newFileName_of_name hne hs]
  by_cases hd : '.' ∈ b
  · obtain ⟨rest, hr, hnd⟩ := Ext_dot hd hs
    rw [hr] at hb ⊢
    refine Ext_of_dot _ rest hnd ?_
    intro hm
    apply hs
    rw [← hb]
    simp [hm]
  · rw [Ext_no_dot hd] at hb ⊢
    apply Ext_no_dot
    rw [List.append_nil] at hb ⊢
    rw [hb]
    intro hm
    rcases List.mem_append.mp hm with hm | hm
    · rcases List.mem_append.mp hm with hm | hm
      · exact hd hm
      · exact absurd hm (by decide)
    · exact hf hm

/-- C10 (collision-free names): for non-empty base names without path
separator and crop numbers 1 or 2, the file names that `saveCroppedImage`
builds are equal exactly when the base names are equal and the crop numbers
are equal. -/
theorem C10_names_collision_free (b1 b2 : List Char) (n1 n2 : Int)
    (hne1 : b1 ≠ []) (hs1 : '/' ∉ b1) (hne2 : b2 ≠ []) (hs2 : '/' ∉ b2)
    (hn1 : n1 = 1 ∨ n1 = 2) (hn2 : n2 = 1 ∨ n2 = 2) :
    newFileName b1 n1 = newFileName b2 n2 ↔ b1 = b2 ∧ n1 = n2 := by
  constructor
  · intro h
    have he : Ext b1 = Ext b2 := by
      rw [← Ext_newFileName hne1 hs1 hn1, ← Ext_newFileName hne2 hs2 hn2, h]
    have hb1 := name_append_ext b1
    have hb2 := name_append_ext b2
    rw [newFileName_of_name hne1 hs1, newFileName_of_name hne2 hs2, he] at h
    have h' := List.append_cancel_right h
    rw [List.append_assoc, List.append_assoc] at h'
    have hlen : (['_', 'c', 'r', 'o', 'p', '_'] ++ formatInt n1).length
        = (['_', 'c', 'r', 'o', 'p', '_'] ++ formatInt n2).length := by
      rcases hn1 with rfl | rfl <;> rcases hn2 with rfl | rfl <;> decide
    obtain ⟨hname, hnum⟩ := List.append_inj' h' hlen
    refine ⟨?_, ?_⟩
    · rw [← hb1, ← hb2, he, hname]
    · have hfmt := List.append_cancel_left hnum
      rcases hn1 with rfl | rfl <;> rcases hn2 with rfl | rfl
      · rfl
      · rw [formatInt_one, formatInt_two] at hfmt
        exact absurd hfmt (by decide)
      · rw [formatInt_one, formatInt_two] at hfmt
        exact absurd hfmt (by decide)
      · rfl
  · rintro ⟨rfl, rfl⟩
    rfl

/-- Witness of C10: `x.png` and `x.PNG`, both for crop 1. -/
theorem C10_names_collision_free_witness :
    (newFileName ['x', '.', 'p', 'n', 'g'] 1 = ['x', '_', 'c', 'r', 'o', 'p', '_', '1', '.', 'p', 'n', 'g']) ∧
    (newFileName ['x', '.', 'p', 'n', 'g'] 1 = newFileName ['x', '.', 'P', 'N', 'G'] 1 ↔
      ['x', '.', 'p', 'n', 'g'] = ['x', '.', 'P', 'N', 'G'] ∧ (1 : Int) = 1) :=
  ⟨by decide,
    C10_names_collision_free ['x', '.', 'p', 'n', 'g'] ['x', '.', 'P', 'N', 'G'] 1 1
      (by decide) (by decide) (by decide) (by decide) (Or.inl rfl) (Or.inl rfl)⟩

end CropImg
